import Mathlib

/-!
Verification of the content discovery and assembly system (the series/media
loader) of a portfolio site, embedded shallowly from `src/lib/series-loader.ts`.

The filesystem is modelled as a tree of named nodes; JavaScript string builtins
used by the loader (`normalize("NFC")`, `toLowerCase`, `split`, `sort`,
`encodeURIComponent`, `endsWith`, regex replaces over fixed character classes)
are modelled as executable Lean functions over `List Char`.
-/

namespace SeriesLoader

/-! ## JavaScript string builtins, modelled -/

/-- Composition of a Latin base letter with the combining acute accent U+0301. -/
def combineAcute (b : Char) : Option Char :=
  if b = 'a' then some 'á' else if b = 'e' then some 'é'
  else if b = 'i' then some 'í' else if b = 'o' then some 'ó'
  else if b = 'u' then some 'ú' else if b = 'y' then some 'ý'
  else if b = 'A' then some 'Á' else if b = 'E' then some 'É'
  else if b = 'I' then some 'Í' else if b = 'O' then some 'Ó'
  else if b = 'U' then some 'Ú' else if b = 'Y' then some 'Ý'
  else none

/-- Composition of a Latin base letter with the combining grave accent U+0300. -/
def combineGrave (b : Char) : Option Char :=
  if b = 'a' then some 'à' else if b = 'e' then some 'è'
  else if b = 'i' then some 'ì' else if b = 'o' then some 'ò'
  else if b = 'u' then some 'ù'
  else if b = 'A' then some 'À' else if b = 'E' then some 'È'
  else if b = 'I' then some 'Ì' else if b = 'O' then some 'Ò'
  else if b = 'U' then some 'Ù'
  else none

/-- Composition of a Latin base letter with the combining circumflex U+0302. -/
def combineCirc (b : Char) : Option Char :=
  if b = 'a' then some 'â' else if b = 'e' then some 'ê'
  else if b = 'i' then some 'î' else if b = 'o' then some 'ô'
  else if b = 'u' then some 'û'
  else if b = 'A' then some 'Â' else if b = 'E' then some 'Ê'
  else if b = 'I' then some 'Î' else if b = 'O' then some 'Ô'
  else if b = 'U' then some 'Û'
  else none

/-- Composition of a Latin base letter with the combining tilde U+0303. -/
def combineTilde (b : Char) : Option Char :=
  if b = 'a' then some 'ã' else if b = 'o' then some 'õ'
  else if b = 'n' then some 'ñ'
  else if b = 'A' then some 'Ã' else if b = 'O' then some 'Õ'
  else if b = 'N' then some 'Ñ'
  else none

/-- Composition of a Latin base letter with the combining diaeresis U+0308. -/
def combineDiaeresis (b : Char) : Option Char :=
  if b = 'a' then some 'ä' else if b = 'e' then some 'ë'
  else if b = 'i' then some 'ï' else if b = 'o' then some 'ö'
  else if b = 'u' then some 'ü' else if b = 'y' then some 'ÿ'
  else if b = 'A' then some 'Ä' else if b = 'E' then some 'Ë'
  else if b = 'I' then some 'Ï' else if b = 'O' then some 'Ö'
  else if b = 'U' then some 'Ü'
  else none

/-- Composition of a Latin base letter with the combining cedilla U+0327. -/
def combineCedilla (b : Char) : Option Char :=
  if b = 'c' then some 'ç' else if b = 'C' then some 'Ç' else none

/-- Composition of a Latin base letter with the combining ring above U+030A. -/
def combineRing (b : Char) : Option Char :=
  if b = 'a' then some 'å' else if b = 'A' then some 'Å' else none

/-- Modelled from the spec: canonical composition step of Unicode NFC
normalization (as performed by the ECMAScript builtin
`String.prototype.normalize` with argument `"NFC"`, which is not part of the
repository), restricted to the Latin base-letter plus combining-mark pairs that
the repository's content uses. Returns the composed character when the pair
composes, `none` otherwise. -/
def combineChar (b m : Char) : Option Char :=
  if m = '\u0301' then combineAcute b
  else if m = '\u0300' then combineGrave b
  else if m = '\u0302' then combineCirc b
  else if m = '\u0303' then combineTilde b
  else if m = '\u0308' then combineDiaeresis b
  else if m = '\u0327' then combineCedilla b
  else if m = '\u030A' then combineRing b
  else none

/-- Left-to-right NFC composition pass: `pending` is the last character not yet
emitted; a following combining mark that composes with it is merged. -/
def nfcGo (pending : Char) : List Char → List Char
  | [] => [pending]
  | m :: rest =>
    match combineChar pending m with
    | some c => nfcGo c rest
    | none => pending :: nfcGo m rest

/-- NFC composition over a character list. -/
def nfcChars : List Char → List Char
  | [] => []
  | c :: rest => nfcGo c rest

/-- The loader's `nfc` helper (`series-loader.ts` line 19): normalizes a string
to composed Unicode form, here via the modelled composition pass. -/
def nfc (s : String) : String := ⟨nfcChars s.data⟩

/-- Modelled from the spec: the ECMAScript builtin `toLowerCase` (not part of
the repository), restricted to ASCII and the Latin-1/Latin-Extended letters the
loader's strings can contain: ASCII uppercase, `À`–`Þ` (except `×`), and `Œ`. -/
def jsToLower (c : Char) : Char :=
  let n := c.toNat
  if 65 ≤ n ∧ n ≤ 90 then Char.ofNat (n + 32)
  else if 192 ≤ n ∧ n ≤ 222 ∧ n ≠ 215 then Char.ofNat (n + 32)
  else if n = 338 then Char.ofNat 339
  else c

/-- String-level `toLowerCase`. -/
def jsLowerStr (s : String) : String := ⟨s.data.map jsToLower⟩

/-- Replace every character of `set` by the character list `rep`, modelling a
JavaScript global regex replace over a fixed character class. -/
def replaceSet (set : List Char) (rep : List Char) : List Char → List Char
  | [] => []
  | c :: rest =>
    if set.contains c then rep ++ replaceSet set rep rest
    else c :: replaceSet set rep rest

/-- The eleven transliteration replaces of `slugify`
(`series-loader.ts` lines 29–39), applied in source order. -/
def applyReplacements (l : List Char) : List Char :=
  l |> replaceSet ['à', 'á', 'â', 'ã', 'ä', 'å'] ['a']
    |> replaceSet ['æ'] ['a', 'e']
    |> replaceSet ['ç'] ['c']
    |> replaceSet ['è', 'é', 'ê', 'ë'] ['e']
    |> replaceSet ['ì', 'í', 'î', 'ï'] ['i']
    |> replaceSet ['ñ'] ['n']
    |> replaceSet ['ò', 'ó', 'ô', 'õ', 'ö'] ['o']
    |> replaceSet ['œ'] ['o', 'e']
    |> replaceSet ['ù', 'ú', 'û', 'ü'] ['u']
    |> replaceSet ['ý', 'ÿ'] ['y']
    |> replaceSet ['ß'] ['s', 's']

/-- Lowercase ASCII letter or digit: the characters the regex class
`[^a-z0-9]` does NOT match. -/
def isLowerAlnum (c : Char) : Bool :=
  (97 ≤ c.toNat && c.toNat ≤ 122) || (48 ≤ c.toNat && c.toNat ≤ 57)

/-- Collapse every maximal run of non-`[a-z0-9]` characters into a single
hyphen, modelling `.replace(/[^a-z0-9]+/g, "-")`. The flag records whether the
previous character was part of such a run. -/
def collapseGo : Bool → List Char → List Char
  | _, [] => []
  | inRun, c :: rest =>
    if isLowerAlnum c then c :: collapseGo false rest
    else if inRun then collapseGo true rest
    else '-' :: collapseGo true rest

/-- Run-collapsing over a whole list (initially not inside a run). -/
def collapseRuns (l : List Char) : List Char := collapseGo false l

/-- Remove the leading and the trailing hyphen run, modelling
`.replace(/^-+|-+$/g, "")`. -/
def trimHyphens (l : List Char) : List Char :=
  ((l.dropWhile (· = '-')).reverse.dropWhile (· = '-')).reverse

/-- The loader's `slugify` (`series-loader.ts` lines 25–42): NFC-normalize,
lowercase, transliterate accents/ligatures to ASCII, collapse non-alphanumeric
runs to single hyphens, trim leading/trailing hyphens. -/
def slugify (s : String) : String :=
  ⟨trimHyphens (collapseRuns (applyReplacements ((nfcChars s.data).map jsToLower)))⟩

/-- Split a character list at every character satisfying `p` (separators are
dropped; empty components are kept), modelling JavaScript `String.split`. -/
def splitOnPred (p : Char → Bool) : List Char → List (List Char)
  | [] => [[]]
  | c :: rest =>
    match splitOnPred p rest with
    | [] => [[]]
    | h :: t => if p c then [] :: h :: t else (c :: h) :: t

/-- JavaScript `s.split("/")`. -/
def splitSlash (s : String) : List String :=
  (splitOnPred (fun c => c = '/') s.data).map (fun l => (⟨l⟩ : String))

/-- The loader's `slugifyPath` (`series-loader.ts` lines 45–47): slugify each
`/`-separated segment independently and rejoin with `/`. -/
def slugifyPath (fsPath : String) : String :=
  String.intercalate "/" ((splitSlash fsPath).map slugify)

/-- Modelled from the spec: JavaScript `String.prototype.endsWith` (not part of
the repository). -/
def strEndsWith (s post : String) : Bool :=
  s.data.reverse.take post.data.length == post.data.reverse

/-- Modelled from the spec: JavaScript `String.prototype.startsWith` (not part
of the repository). -/
def strStartsWith (s pre : String) : Bool :=
  s.data.take pre.data.length == pre.data

/-- Strip a suffix when present, modelling an anchored regex replace such as
`.replace(/\.webp$/, "")`. -/
def stripSuffixStr (s suf : String) : String :=
  if strEndsWith s suf then ⟨s.data.take (s.data.length - suf.data.length)⟩ else s

/-- Strip the first of `exts` that case-insensitively ends the string,
modelling e.g. `.replace(/\.(mp4|mov|webm)$/i, "")` (all alternatives here have
equal length and the original casing of the kept part is preserved). -/
def stripExtCI (s : String) (exts : List String) : String :=
  match exts.find? (fun e => strEndsWith (jsLowerStr s) e) with
  | some e => ⟨s.data.take (s.data.length - e.data.length)⟩
  | none => s

/-- Characters that `encodeURIComponent` leaves unescaped. -/
def isUnreservedUri (c : Char) : Bool :=
  (65 ≤ c.toNat && c.toNat ≤ 90) || (97 ≤ c.toNat && c.toNat ≤ 122) ||
  (48 ≤ c.toNat && c.toNat ≤ 57) ||
  ['-', '_', '.', '!', '~', '*', '\x27', '(', ')'].contains c

/-- Uppercase hexadecimal digit. -/
def hexUpper (n : Nat) : Char :=
  if n < 10 then Char.ofNat (48 + n) else Char.ofNat (55 + n)

/-- UTF-8 bytes of a character. -/
def utf8Bytes (c : Char) : List Nat :=
  let n := c.toNat
  if n < 128 then [n]
  else if n < 2048 then [192 + n / 64, 128 + n % 64]
  else if n < 65536 then [224 + n / 4096, 128 + (n / 64) % 64, 128 + n % 64]
  else [240 + n / 262144, 128 + (n / 4096) % 64, 128 + (n / 64) % 64, 128 + n % 64]

/-- Percent-encoding of one byte. -/
def pctByte (b : Nat) : List Char := ['%', hexUpper (b / 16), hexUpper (b % 16)]

/-- Modelled from the spec: the ECMAScript builtin `encodeURIComponent` (not
part of the repository): unreserved characters pass through, every other
character is percent-encoded byte-by-byte in UTF-8. -/
def encodeURIComponent (s : String) : String :=
  ⟨(s.data.map (fun c =>
      if isUnreservedUri c then [c] else (utf8Bytes c).map pctByte |>.flatten)).flatten⟩

/-- The loader's `encodePathForUrl` (`series-loader.ts` lines 51–56):
percent-encode each `/`-separated segment independently. -/
def encodePathForUrl (filePath : String) : String :=
  String.intercalate "/" ((splitSlash filePath).map encodeURIComponent)

/-- Code-unit comparison of character lists (JavaScript string `<`). -/
def charListLe : List Char → List Char → Bool
  | [], _ => true
  | _ :: _, [] => false
  | a :: as, b :: bs =>
    if a.toNat < b.toNat then true
    else if b.toNat < a.toNat then false
    else charListLe as bs

/-- String comparison used by JavaScript's default array sort. -/
def strLe (a b : String) : Bool := charListLe a.data b.data

/-- Insertion step of a stable insertion sort. -/
def insertStr (a : String) : List String → List String
  | [] => [a]
  | b :: bs => if strLe a b then a :: b :: bs else b :: insertStr a bs

/-- Stable sort of strings, modelling JavaScript `Array.prototype.sort()`'s
default string comparison. -/
def sortStr : List String → List String
  | [] => []
  | a :: as => insertStr a (sortStr as)

/-! ## JavaScript `Map` and plain-object lookup, modelled -/

/-- JavaScript `Map.set`: overwrite in place when the key exists, else append. -/
def mapSet (m : List (String × String)) (k v : String) : List (String × String) :=
  if m.any (fun kv => kv.1 = k) then
    m.map (fun kv => if kv.1 = k then (k, v) else kv)
  else m ++ [(k, v)]

/-- JavaScript `Map.get`. -/
def mapGet (m : List (String × String)) (k : String) : Option String :=
  (m.find? (fun kv => kv.1 = k)).map (·.2)

/-- Property lookup on a JavaScript object modelled as an assoc list with
insertion-ordered distinct keys. -/
def assocFind {α : Type} (l : List (String × α)) (k : String) : Option α :=
  (l.find? (fun kv => kv.1 = k)).map (·.2)

/-! ## Data model

The record types consumed by the rendering layer are declared in
`src/lib/data.ts`, which is not among the provided sources; they are modelled
from the spec (section 3, DATA MODEL) and from the loader's construction sites.
-/

/-- Modelled from the spec: the derived photo orientation, a pure function of
the width/height ratio. -/
inductive Orientation where
  | landscape
  | portrait
  | square
deriving DecidableEq

/-- Modelled from the spec: one image record (`Photo` in `src/lib/data.ts`). -/
structure Photo where
  id : String
  src : String
  alt : String
  width : Nat
  height : Nat
  orientation : Orientation
  seriesId : String
  intentionNote : Option String := none
  technical : Option String := none
  date : Option String := none
deriving DecidableEq

/-- Modelled from the spec: an attached PDF record (`PDFFile` in
`src/lib/data.ts`). -/
structure PDFFile where
  id : String
  src : String
  title : String
  description : Option String := none
deriving DecidableEq

/-- Modelled from the spec: an attached video record (`VideoFile` in
`src/lib/data.ts`). -/
structure VideoFile where
  id : String
  src : String
  title : String
  description : Option String := none
  thumbnail : Option String := none
  duration : Option String := none
deriving DecidableEq

/-- Modelled from the spec: an attached audio record (`AudioFile` in
`src/lib/data.ts`). -/
structure AudioFile where
  id : String
  src : String
  title : String
  description : Option String := none
  duration : Option String := none
deriving DecidableEq

/-- Modelled from the spec: one content collection (`Series` in
`src/lib/data.ts`), as assembled by the loader. -/
structure Series where
  id : String
  slug : String
  title : String
  description : String
  medium : String
  year : String
  link : Option String := none
  linkText : Option String := none
  coverIndex : Int
  biggerIndex : Int
  photos : List Photo
  pdfFiles : Option (List PDFFile) := none
  videoFiles : Option (List VideoFile) := none
  audioFiles : Option (List AudioFile) := none
  hasJson : Bool
deriving DecidableEq

/-- Per-photo metadata of the `photos` map in `series.json`
(`series-loader.ts` lines 98–108). -/
structure PhotoMeta where
  title : Option String := none
  intentionNote : Option String := none
  technical : Option String := none
  date : Option String := none
  width : Option Nat := none
  height : Option Nat := none
deriving DecidableEq

/-- Per-PDF metadata of the `pdfs` map in `series.json`. -/
structure PdfMeta where
  title : Option String := none
  description : Option String := none
deriving DecidableEq

/-- Per-video metadata of the `videos` map in `series.json`. -/
structure VideoMeta where
  title : Option String := none
  description : Option String := none
  thumbnail : Option String := none
  duration : Option String := none
deriving DecidableEq

/-- Per-audio metadata of the `audios` map in `series.json`. -/
structure AudioMeta where
  title : Option String := none
  description : Option String := none
  duration : Option String := none
deriving DecidableEq

/-- The parsed shape of a `series.json` metadata document
(`interface SeriesJson`, `series-loader.ts` lines 65–109). JavaScript objects
keyed by strings are modelled as insertion-ordered assoc lists. -/
structure SeriesJson where
  title : Option String := none
  description : Option String := none
  medium : Option String := none
  year : Option String := none
  link : Option String := none
  linkText : Option String := none
  cover : Option String := none
  bigger : Option String := none
  pdfs : Option (List (String × PdfMeta)) := none
  videos : Option (List (String × VideoMeta)) := none
  audios : Option (List (String × AudioMeta)) := none
  photos : Option (List (String × PhotoMeta)) := none
deriving DecidableEq

/-! ## Filesystem model

A directory tree with named entries, in `readdirSync` order. A file carries
the `SeriesJson` value that `JSON.parse` would produce on its bytes (`none`
when parsing would throw, e.g. for media files or malformed JSON); only the
entry named `series.json` is ever parsed by the loader. -/

/-- A filesystem node: a file (with its would-be parse result) or a directory
with an ordered list of named child nodes. -/
inductive FSNode where
  | file (parsed : Option SeriesJson)
  | dir (entries : List (String × FSNode))

/-- Whether a node is a file (`Dirent.isFile`). -/
def FSNode.isFileB : FSNode → Bool
  | .file _ => true
  | .dir _ => false

/-- Whether a node is a directory (`Dirent.isDirectory`,
`Stats.isDirectory`). -/
def FSNode.isDirB : FSNode → Bool
  | .file _ => false
  | .dir _ => true

mutual

/-- Number of nodes in a tree (used as recursion fuel for directory
discovery). -/
def sizeNode : FSNode → Nat
  | .file _ => 1
  | .dir es => 1 + sizeEntries es

/-- Number of nodes under a list of entries. -/
def sizeEntries : List (String × FSNode) → Nat
  | [] => 0
  | (_, n) :: rest => sizeNode n + sizeEntries rest

end

/-! ## The loader (`series-loader.ts`) -/

/-- Video container extensions recognized by the loader
(`series-loader.ts` line 175). -/
def videoExtensions : List String := [".mp4", ".mov", ".webm"]

/-- Audio extensions recognized by the loader (`series-loader.ts` line 181). -/
def audioExtensions : List String := [".mp3", ".wav", ".m4a", ".ogg", ".aac"]

/-- The loader's `placeholderSvg` (`series-loader.ts` lines 113–121): an
inline SVG data URI showing the declared dimensions over a hue-shifted
background. -/
def placeholderSvg (w h hue : Nat) : String :=
  let bg := "hsl(" ++ toString hue ++ ", 15%, " ++ toString (30 + ((hue * 7) % 15)) ++ "%)"
  "data:image/svg+xml,%3Csvg xmlns=\x27http://www.w3.org/2000/svg\x27 width=\x27" ++
    toString w ++ "\x27 height=\x27" ++ toString h ++ "\x27%3E" ++
    "%3Crect width=\x27" ++ toString w ++ "\x27 height=\x27" ++ toString h ++
    "\x27 fill=\x27" ++ encodeURIComponent bg ++ "\x27/%3E" ++
    "%3Ctext x=\x2750%25\x27 y=\x2750%25\x27 dominant-baseline=\x27middle\x27 text-anchor=\x27middle\x27 " ++
    "fill=\x27%23888\x27 font-family=\x27monospace\x27 font-size=\x2714\x27%3E" ++
    toString w ++ "×" ++ toString h ++ "%3C/text%3E%3C/svg%3E"

/-- The loader's `normalizePhotoName` (`series-loader.ts` lines 125–127):
lowercase, then delete every whitespace/underscore/hyphen character
(`.replace(/[\s_-]+/g, "")`). -/
def normalizePhotoName (name : String) : String :=
  ⟨((jsLowerStr name).data.filter (fun c => !(c.isWhitespace || c = '_' || c = '-')))⟩

/-- The loader's `orientationOf` (`series-loader.ts` lines 130–135); the float
thresholds `ratio > 1.05` and `ratio < 0.95` are expressed over naturals as
`20 * w > 21 * h` and `20 * w < 19 * h`. -/
def orientationOf (w h : Nat) : Orientation :=
  if 20 * w > 21 * h then .landscape
  else if 20 * w < 19 * h then .portrait
  else .square

/-- Whether a directory's entries contain a `series.json` file
(`series-loader.ts` line 367). -/
def hasJsonEntry (es : List (String × FSNode)) : Bool :=
  es.any (fun e => e.2.isFileB && e.1 == "series.json")

/-- Whether a directory's entries contain a `.webp` file
(`series-loader.ts` line 368). -/
def hasWebpEntry (es : List (String × FSNode)) : Bool :=
  es.any (fun e => e.2.isFileB && strEndsWith e.1 ".webp")

/-- Whether a directory's entries contain a video file
(`series-loader.ts` line 369). -/
def hasVideoEntry (es : List (String × FSNode)) : Bool :=
  es.any (fun e => e.2.isFileB && videoExtensions.any (fun ext => strEndsWith (jsLowerStr e.1) ext))

/-- Whether a directory's entries contain an audio file
(`series-loader.ts` line 370). -/
def hasAudioEntry (es : List (String × FSNode)) : Bool :=
  es.any (fun e => e.2.isFileB && audioExtensions.any (fun ext => strEndsWith (jsLowerStr e.1) ext))

/-- Whether a directory's entries contain a `.pdf` file
(`series-loader.ts` line 371); computed by the source but not part of the
registration condition on line 374. -/
def hasPdfEntry (es : List (String × FSNode)) : Bool :=
  es.any (fun e => e.2.isFileB && strEndsWith e.1 ".pdf")

/-- The registration condition of `findSeriesDirs`
(`series-loader.ts` line 374): a metadata file or image/video/audio media. -/
def registersAsSeries (es : List (String × FSNode)) : Bool :=
  hasJsonEntry es || hasWebpEntry es || hasVideoEntry es || hasAudioEntry es

/-- The subdirectory filter of `findSeriesDirs` (`series-loader.ts` line 384):
recurse only into directories whose name is not `.`-prefixed, not `Icon`, and
not `Icon\r`-prefixed. -/
def traversable (n : String) (node : FSNode) : Bool :=
  node.isDirB && !strStartsWith n "." && n != "Icon" && !strStartsWith n "Icon\r"

/-- One registration step of `findSeriesDirs` (`series-loader.ts` lines
374–380): when the directory qualifies, record `slug ↦ nfc path` in the side
table and emit the slug. -/
def registerDir (es : List (String × FSNode)) (currentPath : String)
    (m : List (String × String)) : List String × List (String × String) :=
  if registersAsSeries es then
    let nfcPath := nfc currentPath
    let urlSlug := slugifyPath nfcPath
    ([urlSlug], mapSet m urlSlug nfcPath)
  else ([], m)

/-- The subdirectory loop of `findSeriesDirs` (`series-loader.ts` lines
383–389), parameterized by the continuation `f` used to process one
subdirectory. -/
def findSubsWith
    (f : List (String × FSNode) → String → List (String × String) →
      List String × List (String × String)) :
    List (String × FSNode) → String → List (String × String) →
      List String × List (String × String)
  | [], _, m => ([], m)
  | (n, node) :: rest, cp, m =>
    match node with
    | .dir es =>
      if !strStartsWith n "." && n != "Icon" && !strStartsWith n "Icon\r" then
        let subPath := if cp = "" then n else cp ++ "/" ++ n
        let r := f es subPath m
        let r2 := findSubsWith f rest cp r.2
        (r.1 ++ r2.1, r2.2)
      else findSubsWith f rest cp m
    | .file _ => findSubsWith f rest cp m

/-- The recursive body of `findSeriesDirs` (`series-loader.ts` lines 359–392)
over one directory's entries: register the current directory when it
qualifies, then traverse its subdirectories. The `fuel` parameter makes the
recursion over the nested tree structural; any fuel larger than the tree size
yields the source's behavior. -/
def findSeriesDirsGo : Nat → List (String × FSNode) → String →
    List (String × String) → List String × List (String × String)
  | 0, _, _, m => ([], m)
  | fuel + 1, entries, currentPath, m =>
    let r1 := registerDir entries currentPath m
    let r2 := findSubsWith (findSeriesDirsGo fuel) entries currentPath r1.2
    (r1.1 ++ r2.1, r2.2)

/-- `findSeriesDirs(SERIES_DIR)` on a root whose entries are `root`: returns
the discovered slugs and the populated `slugToFsPath` side table (which starts
empty in a fresh process). -/
def findSeriesDirs (root : List (String × FSNode)) :
    List String × List (String × String) :=
  findSeriesDirsGo (sizeEntries root + 1) root "" []

/-- The segment walk of `resolveSeriesPath` (`series-loader.ts` lines
343–354): at each level, the first real directory entry whose NFC-normalized
name equals the expected segment is taken; `readdirSync` on a file throws
(modelled as `Except.error`); the final node must be a directory. -/
def resolveGo : List String → FSNode →
    Except Unit (Option (List (String × FSNode)))
  | [], node =>
    match node with
    | .dir es => .ok (some es)
    | .file _ => .ok none
  | seg :: rest, node =>
    match node with
    | .file _ => .error ()
    | .dir es =>
      match es.find? (fun e => nfc e.1 = seg) with
      | none => .ok none
      | some e => resolveGo rest e.2

/-- The loader's `resolveSeriesPath` (`series-loader.ts` lines 337–355):
resolve an NFC path to the on-disk directory (whose raw names may be NFD),
walking segment by segment. -/
def resolveSeriesPath (root : List (String × FSNode)) (nfcSlug : String) :
    Except Unit (Option (List (String × FSNode))) :=
  if nfcSlug = "" then .ok none
  else resolveGo (splitSlash nfcSlug) (.dir root)

/-- The `series.json` lookup of `getSeriesBySlug` (`series-loader.ts` lines
157–167): when the entry exists and its contents parse, that value; a parse
failure (or a directory named `series.json`, whose read throws inside the same
`try`) is caught and leaves the metadata empty. -/
def jsonOfEntry : Option (String × FSNode) → SeriesJson
  | some (_, .file p) => p.getD {}
  | some (_, .dir _) => {}
  | none => {}

/-- The `series.json` directory entry, as seen by `fs.existsSync(jsonPath)`
and the metadata load. -/
def jsonEntryOf (entries : List (String × FSNode)) : Option (String × FSNode) :=
  entries.find? (fun e => e.1 = "series.json")

/-- The discovered `.webp` names (`series-loader.ts` lines 170–172): all
entry names ending in `.webp`, sorted. -/
def webpFilesOf (entries : List (String × FSNode)) : List String :=
  sortStr ((entries.map (fun e => e.1)).filter (fun f => strEndsWith f ".webp"))

/-- The discovered video names (`series-loader.ts` lines 175–178). -/
def videoFilesOf (entries : List (String × FSNode)) : List String :=
  sortStr ((entries.map (fun e => e.1)).filter
    (fun f => videoExtensions.any (fun ext => strEndsWith (jsLowerStr f) ext)))

/-- The discovered audio names (`series-loader.ts` lines 181–184). -/
def audioFilesOf (entries : List (String × FSNode)) : List String :=
  sortStr ((entries.map (fun e => e.1)).filter
    (fun f => audioExtensions.any (fun ext => strEndsWith (jsLowerStr f) ext)))

/-- The discovered `.pdf` names (`series-loader.ts` lines 191–193). -/
def pdfFilesOf (entries : List (String × FSNode)) : List String :=
  sortStr ((entries.map (fun e => e.1)).filter (fun f => strEndsWith f ".pdf"))

/-- PDF record construction (`series-loader.ts` lines 200–209). -/
def buildPdfs (slug nfcPath : String) (json : SeriesJson) (files : List String) :
    List PDFFile :=
  files.map (fun file =>
    let name := nfc (stripSuffixStr file ".pdf")
    let meta := assocFind (json.pdfs.getD []) name
    { id := slug ++ "-" ++ name
      src := encodePathForUrl ("/series/" ++ nfcPath ++ "/" ++ nfc file)
      title := (meta.bind (fun mt => mt.title)).getD name
      description := meta.bind (fun mt => mt.description) })

/-- Video record construction (`series-loader.ts` lines 212–223). -/
def buildVideos (slug nfcPath : String) (json : SeriesJson) (files : List String) :
    List VideoFile :=
  files.map (fun file =>
    let name := nfc (stripExtCI file videoExtensions)
    let meta := assocFind (json.videos.getD []) name
    { id := slug ++ "-" ++ name
      src := encodePathForUrl ("/series/" ++ nfcPath ++ "/" ++ nfc file)
      title := (meta.bind (fun mt => mt.title)).getD name
      description := meta.bind (fun mt => mt.description)
      thumbnail := meta.bind (fun mt => mt.thumbnail)
      duration := meta.bind (fun mt => mt.duration) })

/-- Audio record construction (`series-loader.ts` lines 226–236). -/
def buildAudios (slug nfcPath : String) (json : SeriesJson) (files : List String) :
    List AudioFile :=
  files.map (fun file =>
    let name := nfc (stripExtCI file audioExtensions)
    let meta := assocFind (json.audios.getD []) name
    { id := slug ++ "-" ++ name
      src := encodePathForUrl ("/series/" ++ nfcPath ++ "/" ++ nfc file)
      title := (meta.bind (fun mt => mt.title)).getD name
      description := meta.bind (fun mt => mt.description)
      duration := meta.bind (fun mt => mt.duration) })

/-- The normalized-key side map (`series-loader.ts` lines 237–242): for each
`photos` key of the metadata document, in order, `normalizePhotoName key ↦
key` (a later key with the same normalized form overwrites an earlier one). -/
def normalizedKeysOf (photosJson : List (String × PhotoMeta)) :
    List (String × String) :=
  photosJson.foldl (fun m kv => mapSet m (normalizePhotoName kv.1) kv.1) []

/-- The JSON key a discovered file consumes (`series-loader.ts` lines
246–249): the metadata key with the same normalized name when one exists,
else the filename stem itself. -/
def passKey (normKeys : List (String × String)) (file : String) : String :=
  (mapGet normKeys (normalizePhotoName (nfc (stripSuffixStr file ".webp")))).getD
    (nfc (stripSuffixStr file ".webp"))

/-- The `Photo` built for one discovered file (`series-loader.ts` lines
250–265). -/
def passPhoto (slug nfcPath : String) (photosJson : List (String × PhotoMeta))
    (normKeys : List (String × String)) (file : String) : Photo :=
  let name := nfc (stripSuffixStr file ".webp")
  let meta := assocFind photosJson (passKey normKeys file)
  let w := (meta.bind (fun mt => mt.width)).getD 1200
  let h := (meta.bind (fun mt => mt.height)).getD 800
  { id := slug ++ "-" ++ name
    src := encodePathForUrl ("/series/" ++ nfcPath ++ "/" ++ nfc file)
    alt := (meta.bind (fun mt => mt.title)).getD name
    width := w
    height := h
    orientation := orientationOf w h
    seriesId := slug
    intentionNote := meta.bind (fun mt => mt.intentionNote)
    technical := meta.bind (fun mt => mt.technical)
    date := meta.bind (fun mt => mt.date) }

/-- Pass 1 of photo construction (`series-loader.ts` lines 245–266): one
`Photo` per discovered `.webp` file, linked to a metadata entry through the
normalized name; also accumulates the `handledNames` set of consumed JSON
keys. -/
def photosPass (slug nfcPath : String) (photosJson : List (String × PhotoMeta))
    (normKeys : List (String × String)) : List String → List Photo × List String
  | [] => ([], [])
  | file :: rest =>
    let r := photosPass slug nfcPath photosJson normKeys rest
    (passPhoto slug nfcPath photosJson normKeys file :: r.1,
      passKey normKeys file :: r.2)

/-- One placeholder photo (`series-loader.ts` lines 273–287): declared
dimensions (defaulting to 1200 by 800) and a hue-parameterized synthesized
SVG source. -/
def placeholderPhoto (slug name : String) (meta : PhotoMeta) (hue : Nat) : Photo :=
  { id := slug ++ "-" ++ name
    src := placeholderSvg (meta.width.getD 1200) (meta.height.getD 800) hue
    alt := meta.title.getD name
    width := meta.width.getD 1200
    height := meta.height.getD 800
    orientation := orientationOf (meta.width.getD 1200) (meta.height.getD 800)
    seriesId := slug
    intentionNote := meta.intentionNote
    technical := meta.technical
    date := meta.date }

/-- Pass 2 of photo construction (`series-loader.ts` lines 269–289): metadata
entries not consumed by pass 1 become placeholder photos; the hue starts at
210 and advances by 12 per emitted placeholder. -/
def placeholderPass (slug : String) (handled : List String) (hue : Nat) :
    List (String × PhotoMeta) → List Photo
  | [] => []
  | (name, meta) :: rest =>
    if handled.contains name then placeholderPass slug handled hue rest
    else placeholderPhoto slug name meta hue :: placeholderPass slug handled (hue + 12) rest

/-- JavaScript `Array.prototype.findIndex`: first matching index, `-1` when
none matches. -/
def jsFindIndex {α : Type} (p : α → Bool) : List α → Int
  | [] => -1
  | a :: rest =>
    if p a then 0
    else
      let r := jsFindIndex p rest
      if r = -1 then -1 else r + 1

/-- The photo list of the assembled series: pass 1 followed by the
placeholders of pass 2. -/
def photosOf (slug nfcPath : String) (json : SeriesJson)
    (entries : List (String × FSNode)) : List Photo :=
  let photosJson := json.photos.getD []
  let normKeys := normalizedKeysOf photosJson
  let pass1 := photosPass slug nfcPath photosJson normKeys (webpFilesOf entries)
  pass1.1 ++ placeholderPass slug pass1.2 210 photosJson

/-- Cover index determination (`series-loader.ts` lines 304–307): a declared
(truthy) `cover` key is resolved against photo ids by `findIndex`, clamped to
0; otherwise 0. -/
def coverIndexOf (slug : String) (json : SeriesJson) (photos : List Photo) : Int :=
  match json.cover with
  | some c =>
    if c = "" then 0
    else max 0 (jsFindIndex (fun p => p.id = slug ++ "-" ++ c) photos)
  | none => 0

/-- Bigger index determination (`series-loader.ts` lines 311–314): a declared
(truthy) `bigger` key resolved the same way; otherwise the cover index. -/
def biggerIndexOf (slug : String) (json : SeriesJson) (photos : List Photo)
    (coverIndex : Int) : Int :=
  match json.bigger with
  | some b =>
    if b = "" then coverIndex
    else max 0 (jsFindIndex (fun p => p.id = slug ++ "-" ++ b) photos)
  | none => coverIndex

/-- Assembly of the `Series` record (`series-loader.ts` lines 196–332), after
the not-a-series guard has passed. -/
def assembleSeries (slug nfcPath : String) (entries : List (String × FSNode)) :
    Series :=
  let json := jsonOfEntry (jsonEntryOf entries)
  let pdfs := buildPdfs slug nfcPath json (pdfFilesOf entries)
  let videos := buildVideos slug nfcPath json (videoFilesOf entries)
  let audios := buildAudios slug nfcPath json (audioFilesOf entries)
  let photos := photosOf slug nfcPath json entries
  let fsParts := (splitOnPred (fun c => c = '/' || c = '\\') nfcPath.data).map
    (fun l => (⟨l⟩ : String))
  let folderName := fsParts.getLast?.getD nfcPath
  let coverIndex := coverIndexOf slug json photos
  { id := slug
    slug := slug
    title := json.title.getD folderName
    description := json.description.getD ""
    medium := json.medium.getD ""
    year := json.year.getD ""
    link := json.link
    linkText := json.linkText
    coverIndex := coverIndex
    biggerIndex := biggerIndexOf slug json photos coverIndex
    photos := photos
    pdfFiles := if pdfs.length > 0 then some pdfs else none
    videoFiles := if videos.length > 0 then some videos else none
    audioFiles := if audios.length > 0 then some audios else none
    hasJson := (jsonEntryOf entries).isSome }

/-- `hasAnyMedia` (`series-loader.ts` line 187): any discovered image, video
or audio file. -/
def hasAnyMediaOf (entries : List (String × FSNode)) : Bool :=
  !(webpFilesOf entries).isEmpty || !(videoFilesOf entries).isEmpty ||
    !(audioFilesOf entries).isEmpty

/-- Loading of one resolved series directory (`series-loader.ts` lines
157–332): `none` exactly when there is neither a `series.json` entry nor any
discovered image/video/audio file. -/
def loadFromDir (slug nfcPath : String) (entries : List (String × FSNode)) :
    Option Series :=
  if (jsonEntryOf entries).isNone && !hasAnyMediaOf entries then none
  else some (assembleSeries slug nfcPath entries)

/-- The loader's `getSeriesBySlug` (`series-loader.ts` lines 139–333) on a
root directory with entries `root`. The side table starts empty in a fresh
process, so the lazy population on line 142 computes exactly
`findSeriesDirs root`; the filesystem value is fixed, so a pre-populated
table is the same. `Except.error` models an uncaught `readdirSync`
exception. -/
def getSeriesBySlug (root : List (String × FSNode)) (slug : String) :
    Except Unit (Option Series) :=
  match mapGet (findSeriesDirs root).2 slug with
  | none => .ok none
  | some nfcPath =>
    if nfcPath = "" then .ok none
    else
      match resolveSeriesPath root nfcPath with
      | .error e => .error e
      | .ok none => .ok none
      | .ok (some entries) => .ok (loadFromDir slug nfcPath entries)

/-- The load loop of `getAllSeries` (`series-loader.ts` lines 400–404):
load each discovered slug in order, keeping the non-null results. -/
def getAllSeriesGo (root : List (String × FSNode)) :
    List String → Except Unit (List Series)
  | [] => .ok []
  | slug :: rest =>
    match getSeriesBySlug root slug with
    | .error e => .error e
    | .ok os =>
      match getAllSeriesGo root rest with
      | .error e => .error e
      | .ok l =>
        .ok (match os with
          | some s => s :: l
          | none => l)

/-- The loader's `getAllSeries` (`series-loader.ts` lines 395–406): discovery
followed by a load of every discovered slug, omitting failures. -/
def getAllSeries (root : List (String × FSNode)) : Except Unit (List Series) :=
  getAllSeriesGo root (findSeriesDirs root).1

/-! ## Lemmas about the slug alphabet -/

/-- A character `slugify` may emit: lowercase ASCII alphanumeric or hyphen. -/
def isSlugChar (c : Char) : Bool := isLowerAlnum c || c = '-'

/-- Adjacent characters are not both hyphens. -/
def notBothHyphens (a b : Char) : Prop := ¬(a = '-' ∧ b = '-')

theorem collapseGo_chars {l : List Char} :
    ∀ {b c}, c ∈ collapseGo b l → isSlugChar c = true := by
  induction l with
  | nil => intro b c h; simp [collapseGo] at h
  | cons d rest ih =>
    intro b c h
    by_cases hd : isLowerAlnum d
    · rw [collapseGo, if_pos hd] at h
      rcases List.mem_cons.mp h with h | h
      · subst h; simp [isSlugChar, hd]
      · exact ih h
    · cases b with
      | true =>
        rw [collapseGo, if_neg hd, if_pos rfl] at h
        exact ih h
      | false =>
        rw [collapseGo, if_neg hd] at h
        simp only [Bool.false_eq_true, if_false] at h
        rcases List.mem_cons.mp h with h | h
        · subst h; simp [isSlugChar]
        · exact ih h

theorem hyphen_not_alnum : isLowerAlnum '-' = false := by decide

theorem collapseGo_true_head (l : List Char) :
    (collapseGo true l).head? ≠ some '-' := by
  induction l with
  | nil => simp [collapseGo]
  | cons d rest ih =>
    by_cases hd : isLowerAlnum d
    · rw [collapseGo, if_pos hd]
      intro h
      rw [List.head?_cons, Option.some_inj] at h
      subst h
      exact absurd hd (by decide)
    · rw [collapseGo, if_neg hd, if_pos rfl]
      exact ih

theorem collapseGo_chain {l : List Char} :
    ∀ b, (collapseGo b l).Chain' notBothHyphens := by
  induction l with
  | nil => intro b; simp [collapseGo]
  | cons d rest ih =>
    intro b
    by_cases hd : isLowerAlnum d
    · rw [collapseGo, if_pos hd]
      refine List.chain'_cons'.mpr ⟨?_, ih false⟩
      intro y _ hcon
      rw [hcon.1] at hd
      exact absurd hd (by decide)
    · cases b with
      | true => rw [collapseGo, if_neg hd, if_pos rfl]; exact ih true
      | false =>
        rw [collapseGo, if_neg hd]
        simp only [Bool.false_eq_true, if_false]
        refine List.chain'_cons'.mpr ⟨?_, ih true⟩
        intro y hy hcon
        apply collapseGo_true_head rest
        rw [hcon.2] at hy
        exact Option.mem_def.mp hy

theorem dropWhile_head_not {p : Char → Bool} {l : List Char} {c : Char} :
    (l.dropWhile p).head? = some c → p c = false := by
  induction l with
  | nil => intro h; simp at h
  | cons d rest ih =>
    intro h
    by_cases hd : p d
    · rw [List.dropWhile_cons_of_pos hd] at h
      exact ih h
    · rw [List.dropWhile_cons_of_neg hd, List.head?_cons, Option.some_inj] at h
      subst h
      exact Bool.eq_false_iff.mpr hd

theorem head?_of_prefix {l₁ l₂ : List Char} (h : l₁ <+: l₂) (hne : l₁ ≠ []) :
    l₁.head? = l₂.head? := by
  rcases h with ⟨t, rfl⟩
  cases l₁ with
  | nil => exact absurd rfl hne
  | cons a l => simp

/-- The head of a `trimHyphens` result is never a hyphen. -/
theorem trimHyphens_head (l : List Char) : (trimHyphens l).head? ≠ some '-' := by
  unfold trimHyphens
  set y := l.dropWhile (· = '-') with hy
  have hsuf : (y.reverse.dropWhile (· = '-')) <:+ y.reverse := List.dropWhile_suffix _
  have hpre : (y.reverse.dropWhile (· = '-')).reverse <+: y := by
    apply List.reverse_suffix.mp
    simpa using hsuf
  intro h
  have hne : (y.reverse.dropWhile (· = '-')).reverse ≠ [] := by
    intro h0; rw [h0] at h; simp at h
  have := head?_of_prefix hpre hne
  rw [this] at h
  have : ((· = '-') : Char → Bool) '-' = false := dropWhile_head_not (hy ▸ h)
  simp at this

/-- The last character of a `trimHyphens` result is never a hyphen. -/
theorem trimHyphens_getLast (l : List Char) :
    (trimHyphens l).getLast? ≠ some '-' := by
  unfold trimHyphens
  rw [List.getLast?_reverse]
  intro h
  have : ((· = '-') : Char → Bool) '-' = false := dropWhile_head_not h
  simp at this

theorem mem_trimHyphens {l : List Char} {c : Char} (h : c ∈ trimHyphens l) :
    c ∈ l := by
  unfold trimHyphens at h
  rw [List.mem_reverse] at h
  have h2 := (List.dropWhile_suffix (l := (l.dropWhile (· = '-')).reverse)
    (p := (· = '-'))).subset h
  rw [List.mem_reverse] at h2
  exact (List.dropWhile_suffix (p := (· = '-'))).subset h2

/-- Every character of a slugify result is a lowercase alphanumeric or a
hyphen. -/
theorem slugify_chars {s : String} {c : Char} (h : c ∈ (slugify s).data) :
    isSlugChar c = true :=
  collapseGo_chars (mem_trimHyphens h)

theorem slugChar_small {c : Char} (h : isSlugChar c = true) : c.toNat ≤ 122 := by
  simp only [isSlugChar, isLowerAlnum, Bool.or_eq_true, Bool.and_eq_true,
    decide_eq_true_eq] at h
  rcases h with (⟨h1, h2⟩ | ⟨h1, h2⟩) | h
  · omega
  · omega
  · subst h; decide

theorem combineChar_none_of_small {b m : Char} (h : m.toNat < 768) :
    combineChar b m = none := by
  unfold combineChar
  split_ifs with h1 h2 h3 h4 h5 h6 h7
  · exact absurd h (by rw [h1]; decide)
  · exact absurd h (by rw [h2]; decide)
  · exact absurd h (by rw [h3]; decide)
  · exact absurd h (by rw [h4]; decide)
  · exact absurd h (by rw [h5]; decide)
  · exact absurd h (by rw [h6]; decide)
  · exact absurd h (by rw [h7]; decide)
  · rfl

theorem nfcGo_fix {l : List Char} (h : ∀ c ∈ l, c.toNat < 768) :
    ∀ p, nfcGo p l = p :: l := by
  induction l with
  | nil => intro p; rfl
  | cons m rest ih =>
    intro p
    rw [nfcGo, combineChar_none_of_small (h m (List.mem_cons_self _ _))]
    rw [ih (fun c hc => h c (List.mem_cons_of_mem _ hc))]

theorem nfcChars_fix {l : List Char} (h : ∀ c ∈ l, c.toNat < 768) :
    nfcChars l = l := by
  cases l with
  | nil => rfl
  | cons c rest =>
    rw [nfcChars, nfcGo_fix (fun c hc => h c (List.mem_cons_of_mem _ hc))]

theorem jsToLower_fix {c : Char} (h : isSlugChar c = true) : jsToLower c = c := by
  have hn : (97 ≤ c.toNat ∧ c.toNat ≤ 122) ∨ (48 ≤ c.toNat ∧ c.toNat ≤ 57) ∨
      c.toNat = 45 := by
    simp only [isSlugChar, isLowerAlnum, Bool.or_eq_true, Bool.and_eq_true,
      decide_eq_true_eq] at h
    rcases h with (⟨h1, h2⟩ | ⟨h1, h2⟩) | h
    · exact Or.inl ⟨h1, h2⟩
    · exact Or.inr (Or.inl ⟨h1, h2⟩)
    · subst h; exact Or.inr (Or.inr rfl)
  simp only [jsToLower]
  split_ifs with h1 h2 h3
  · omega
  · omega
  · omega
  · rfl

theorem contains_false_of_big {set : List Char} {c : Char}
    (hset : ∀ x ∈ set, 122 < x.toNat) (hc : c.toNat ≤ 122) :
    set.contains c = false := by
  induction set with
  | nil => rfl
  | cons x rest ih =>
    rw [List.contains_cons]
    have hx : (c == x) = false := by
      apply beq_false_of_ne
      intro hxc
      subst hxc
      exact absurd (hset c (List.mem_cons_self _ _)) (by omega)
    rw [hx, Bool.false_or]
    exact ih (fun y hy => hset y (List.mem_cons_of_mem _ hy))

theorem replaceSet_fix {set rep : List Char} {l : List Char}
    (h : ∀ c ∈ l, set.contains c = false) : replaceSet set rep l = l := by
  induction l with
  | nil => rfl
  | cons c rest ih =>
    rw [replaceSet, h c (List.mem_cons_self _ _)]
    simp only [Bool.false_eq_true, if_false]
    rw [ih (fun d hd => h d (List.mem_cons_of_mem _ hd))]

theorem applyReplacements_fix {l : List Char}
    (h : ∀ c ∈ l, isSlugChar c = true) : applyReplacements l = l := by
  have hsmall : ∀ c ∈ l, c.toNat ≤ 122 := fun c hc => slugChar_small (h c hc)
  unfold applyReplacements
  rw [replaceSet_fix (fun c hc => contains_false_of_big (by decide) (hsmall c hc))]
  rw [replaceSet_fix (fun c hc => contains_false_of_big (by decide) (hsmall c hc))]
  rw [replaceSet_fix (fun c hc => contains_false_of_big (by decide) (hsmall c hc))]
  rw [replaceSet_fix (fun c hc => contains_false_of_big (by decide) (hsmall c hc))]
  rw [replaceSet_fix (fun c hc => contains_false_of_big (by decide) (hsmall c hc))]
  rw [replaceSet_fix (fun c hc => contains_false_of_big (by decide) (hsmall c hc))]
  rw [replaceSet_fix (fun c hc => contains_false_of_big (by decide) (hsmall c hc))]
  rw [replaceSet_fix (fun c hc => contains_false_of_big (by decide) (hsmall c hc))]
  rw [replaceSet_fix (fun c hc => contains_false_of_big (by decide) (hsmall c hc))]
  rw [replaceSet_fix (fun c hc => contains_false_of_big (by decide) (hsmall c hc))]
  rw [replaceSet_fix (fun c hc => contains_false_of_big (by decide) (hsmall c hc))]

theorem collapseGo_true_eq_false {l : List Char}
    (hchars : ∀ c ∈ l, isSlugChar c = true) (hhead : l.head? ≠ some '-') :
    collapseGo true l = collapseGo false l := by
  cases l with
  | nil => rfl
  | cons c rest =>
    have hc : isLowerAlnum c = true := by
      have := hchars c (List.mem_cons_self _ _)
      simp only [isSlugChar, Bool.or_eq_true, decide_eq_true_eq] at this
      rcases this with h | h
      · exact h
      · subst h; simp at hhead
    rw [collapseGo, collapseGo, if_pos hc, if_pos hc]

theorem collapseGo_fix :
    ∀ (n : Nat) (l : List Char), l.length ≤ n →
      (∀ c ∈ l, isSlugChar c = true) → l.Chain' notBothHyphens →
      l.getLast? ≠ some '-' → l.head? ≠ some '-' →
      collapseGo false l = l := by
  intro n
  induction n with
  | zero =>
    intro l hlen _ _ _ _
    obtain rfl := List.length_eq_zero.mp (Nat.le_zero.mp hlen)
    rfl
  | succ n ih =>
    intro l hlen hchars hchain hlast hhead
    cases l with
    | nil => rfl
    | cons c rest =>
      have hc : isLowerAlnum c = true := by
        have := hchars c (List.mem_cons_self _ _)
        simp only [isSlugChar, Bool.or_eq_true, decide_eq_true_eq] at this
        rcases this with h | h
        · exact h
        · subst h; simp at hhead
      rw [collapseGo, if_pos hc]
      congr 1
      cases rest with
      | nil => rfl
      | cons d rest' =>
        by_cases hd : d = '-'
        · subst hd
          rw [collapseGo]
          rw [if_neg (by decide)]
          simp only [Bool.false_eq_true, if_false]
          congr 1
          cases rest' with
          | nil =>
            exfalso
            apply hlast
            rfl
          | cons e rest'' =>
            have he : e ≠ '-' := by
              have := (List.chain'_cons.mp (List.chain'_cons.mp hchain).2).1
              intro h
              exact this ⟨rfl, h⟩
            have hche : ∀ x ∈ e :: rest'', isSlugChar x = true := fun x hx =>
              hchars x (List.mem_cons_of_mem _ (List.mem_cons_of_mem _ hx))
            rw [collapseGo_true_eq_false hche (by simpa using he)]
            apply ih _ (by simp at hlen ⊢; omega) hche
            · exact (List.chain'_cons.mp (List.chain'_cons.mp hchain).2).2
            · simpa using hlast
            · simpa using he
        · apply ih _ (by simp at hlen ⊢; omega)
            (fun x hx => hchars x (List.mem_cons_of_mem _ hx))
            (List.chain'_cons.mp hchain).2
          · simpa using hlast
          · simpa using hd

theorem dropWhile_eq_self_of_head {p : Char → Bool} {l : List Char}
    (h : ∀ c, l.head? = some c → p c = false) : l.dropWhile p = l := by
  cases l with
  | nil => rfl
  | cons c rest =>
    rw [List.dropWhile_cons_of_neg]
    rw [h c rfl]
    simp

theorem trimHyphens_fix {l : List Char} (hhead : l.head? ≠ some '-')
    (hlast : l.getLast? ≠ some '-') : trimHyphens l = l := by
  have h1 : l.dropWhile (· = '-') = l := by
    apply dropWhile_eq_self_of_head
    intro c hc
    simp only [decide_eq_false_iff_not]
    intro h
    exact hhead (h ▸ hc)
  have h2 : l.reverse.dropWhile (· = '-') = l.reverse := by
    apply dropWhile_eq_self_of_head
    intro c hc
    rw [List.head?_reverse] at hc
    simp only [decide_eq_false_iff_not]
    intro h
    exact hlast (h ▸ hc)
  unfold trimHyphens
  rw [h1, h2, List.reverse_reverse]

theorem chain'_trimHyphens {l : List Char} (h : l.Chain' notBothHyphens) :
    (trimHyphens l).Chain' notBothHyphens := by
  unfold trimHyphens
  have h1 : (l.dropWhile (· = '-')).Chain' notBothHyphens :=
    h.suffix (List.dropWhile_suffix _)
  have h2 : ((l.dropWhile (· = '-')).reverse).Chain' (flip notBothHyphens) := by
    rw [List.chain'_reverse]
    exact h1.imp (fun a b hab => by
      simp only [flip, notBothHyphens] at *
      tauto)
  have h3 : (((l.dropWhile (· = '-')).reverse).dropWhile (· = '-')).Chain'
      (flip notBothHyphens) := h2.suffix (List.dropWhile_suffix _)
  rw [List.chain'_reverse]
  exact h3.imp (fun a b hab => by
    simp only [flip, notBothHyphens] at *
    tauto)

/-- `slugify` output characters are `< 768` and fixed by the slug-preserving
passes; the full pipeline fixes any good slug string. -/
theorem slugify_fix {t : String}
    (hchars : ∀ c ∈ t.data, isSlugChar c = true)
    (hchain : t.data.Chain' notBothHyphens)
    (hhead : t.data.head? ≠ some '-') (hlast : t.data.getLast? ≠ some '-') :
    slugify t = t := by
  unfold slugify
  rw [nfcChars_fix (fun c hc => by
    have := slugChar_small (hchars c hc); omega)]
  have hmap : t.data.map jsToLower = t.data := by
    conv_rhs => rw [← List.map_id t.data]
    exact List.map_congr_left (fun c hc => jsToLower_fix (hchars c hc))
  rw [hmap, applyReplacements_fix hchars]
  unfold collapseRuns
  rw [collapseGo_fix t.data.length t.data le_rfl hchars hchain hlast hhead]
  rw [trimHyphens_fix hhead hlast]

theorem slugify_data (s : String) :
    (slugify s).data =
      trimHyphens (collapseRuns (applyReplacements ((nfcChars s.data).map jsToLower))) :=
  rfl

/-- C5: `slugify` always yields a string of lowercase ASCII letters, digits
and hyphens, with no leading or trailing hyphen, and `slugify` is
idempotent. -/
theorem slugify_ascii_trimmed_idempotent (s : String) :
    (∀ c ∈ (slugify s).data, isSlugChar c = true) ∧
      (slugify s).data.head? ≠ some '-' ∧
      (slugify s).data.getLast? ≠ some '-' ∧
      slugify (slugify s) = slugify s := by
  refine ⟨fun c hc => slugify_chars hc, ?_, ?_, ?_⟩
  · rw [slugify_data]; exact trimHyphens_head _
  · rw [slugify_data]; exact trimHyphens_getLast _
  · apply slugify_fix
    · exact fun c hc => slugify_chars hc
    · rw [slugify_data]
      exact chain'_trimHyphens (collapseGo_chain false)
    · rw [slugify_data]; exact trimHyphens_head _
    · rw [slugify_data]; exact trimHyphens_getLast _

/-! ## Inversion lemmas for the load pipeline -/

theorem loadFromDir_some {slug nfcPath : String}
    {entries : List (String × FSNode)} {s : Series}
    (h : loadFromDir slug nfcPath entries = some s) :
    s = assembleSeries slug nfcPath entries := by
  unfold loadFromDir at h
  split at h
  · exact absurd h (by simp)
  · exact (Option.some_inj.mp h).symm

theorem getSeriesBySlug_ok_some {root : List (String × FSNode)} {slug : String}
    {s : Series} (h : getSeriesBySlug root slug = .ok (some s)) :
    ∃ nfcPath entries, mapGet (findSeriesDirs root).2 slug = some nfcPath ∧
      loadFromDir slug nfcPath entries = some s := by
  unfold getSeriesBySlug at h
  split at h
  · exact absurd h (by simp)
  · rename_i nfcPath hm
    split at h
    · exact absurd h (by simp)
    · split at h
      · exact absurd h (by simp)
      · exact absurd h (by simp)
      · rename_i entries hres
        refine ⟨nfcPath, entries, hm, ?_⟩
        injection h

theorem assembleSeries_photos {slug nfcPath : String}
    {entries : List (String × FSNode)} :
    (assembleSeries slug nfcPath entries).photos =
      photosOf slug nfcPath (jsonOfEntry (jsonEntryOf entries)) entries := rfl

theorem assembleSeries_coverIndex {slug nfcPath : String}
    {entries : List (String × FSNode)} :
    (assembleSeries slug nfcPath entries).coverIndex =
      coverIndexOf slug (jsonOfEntry (jsonEntryOf entries))
        (photosOf slug nfcPath (jsonOfEntry (jsonEntryOf entries)) entries) := rfl

theorem assembleSeries_biggerIndex {slug nfcPath : String}
    {entries : List (String × FSNode)} :
    (assembleSeries slug nfcPath entries).biggerIndex =
      biggerIndexOf slug (jsonOfEntry (jsonEntryOf entries))
        (photosOf slug nfcPath (jsonOfEntry (jsonEntryOf entries)) entries)
        (coverIndexOf slug (jsonOfEntry (jsonEntryOf entries))
          (photosOf slug nfcPath (jsonOfEntry (jsonEntryOf entries)) entries)) := rfl

theorem assembleSeries_slug {slug nfcPath : String}
    {entries : List (String × FSNode)} :
    (assembleSeries slug nfcPath entries).slug = slug := rfl

/-! ## Index bounds (C1) -/

theorem jsFindIndex_lt_length {α : Type} (p : α → Bool) (l : List α) :
    jsFindIndex p l < l.length := by
  induction l with
  | nil => simp [jsFindIndex]
  | cons a rest ih =>
    rw [jsFindIndex]
    split
    · simp
    · simp only []
      split
      · simp only [List.length_cons]
        push_cast
        omega
      · simp only [List.length_cons]
        push_cast
        omega

theorem coverIndexOf_bounds {slug : String} {json : SeriesJson}
    {photos : List Photo} (hne : photos ≠ []) :
    0 ≤ coverIndexOf slug json photos ∧
      coverIndexOf slug json photos < photos.length := by
  have hpos : (0 : Int) < photos.length := by
    have := List.length_pos.mpr hne
    exact_mod_cast this
  unfold coverIndexOf
  split
  · rename_i c _
    split
    · exact ⟨le_refl 0, hpos⟩
    · constructor
      · exact le_max_left 0 _
      · exact max_lt_iff.mpr ⟨hpos, jsFindIndex_lt_length _ _⟩
  · exact ⟨le_refl 0, hpos⟩

theorem biggerIndexOf_bounds {slug : String} {json : SeriesJson}
    {photos : List Photo} {coverIndex : Int} (hne : photos ≠ [])
    (hc : 0 ≤ coverIndex ∧ coverIndex < photos.length) :
    0 ≤ biggerIndexOf slug json photos coverIndex ∧
      biggerIndexOf slug json photos coverIndex < photos.length := by
  have hpos : (0 : Int) < photos.length := by
    have := List.length_pos.mpr hne
    exact_mod_cast this
  unfold biggerIndexOf
  split
  · rename_i b _
    split
    · exact hc
    · constructor
      · exact le_max_left 0 _
      · exact max_lt_iff.mpr ⟨hpos, jsFindIndex_lt_length _ _⟩
  · exact hc

/-- C1: for every series returned by `getSeriesBySlug` with at least one
photo, `coverIndex` and `biggerIndex` are valid indices into `photos`, even
when the declared cover/bigger key resolves to no photo. -/
theorem cover_bigger_indices_in_range (root : List (String × FSNode))
    (slug : String) (s : Series) (h : getSeriesBySlug root slug = .ok (some s))
    (hne : s.photos ≠ []) :
    (0 ≤ s.coverIndex ∧ s.coverIndex < s.photos.length) ∧
      (0 ≤ s.biggerIndex ∧ s.biggerIndex < s.photos.length) := by
  obtain ⟨nfcPath, entries, _, hload⟩ := getSeriesBySlug_ok_some h
  obtain rfl := loadFromDir_some hload
  rw [assembleSeries_photos] at hne ⊢
  rw [assembleSeries_coverIndex, assembleSeries_biggerIndex]
  have hc := @coverIndexOf_bounds slug (jsonOfEntry (jsonEntryOf entries)) _ hne
  exact ⟨hc, biggerIndexOf_bounds hne hc⟩

/-- Fixture for the C1 witness: a series whose `cover` and `bigger` keys match
no photo. -/
def w1Json : SeriesJson := { cover := some "nope", bigger := some "missing" }

/-- Fixture root directory for the C1 witness. -/
def w1Root : List (String × FSNode) :=
  [("a", .dir [("series.json", .file (some w1Json)), ("x.webp", .file none)])]

/-- The series the C1 witness loads. -/
def w1S : Series :=
  match getSeriesBySlug w1Root "a" with
  | .ok (some s) => s
  | _ => assembleSeries "" "" []

/-- Witness for C1 at a concrete filesystem. -/
theorem cover_bigger_indices_in_range_witness :
    (0 ≤ w1S.coverIndex ∧ w1S.coverIndex < w1S.photos.length) ∧
      (0 ≤ w1S.biggerIndex ∧ w1S.biggerIndex < w1S.photos.length) :=
  cover_bigger_indices_in_range w1Root "a" w1S rfl (by decide)

/-! ## Cover/bigger key resolution is by exact id equality (C10) -/

theorem jsFindIndex_eq_neg_one {α : Type} {p : α → Bool} {l : List α}
    (h : ∀ a ∈ l, p a = false) : jsFindIndex p l = -1 := by
  induction l with
  | nil => rfl
  | cons a rest ih =>
    rw [jsFindIndex, if_neg (by simp [h a (List.mem_cons_self _ _)])]
    simp only []
    rw [ih (fun x hx => h x (List.mem_cons_of_mem _ hx))]
    simp

/-- C10: a declared cover key is resolved against photo ids
`slug ++ "-" ++ key` by exact string equality via `findIndex`; when no photo
id matches exactly (for instance when the key differs from the filename stem
only in casing/spacing), `coverIndex` silently falls back to 0, and
`biggerIndex` follows it when no bigger key is declared. -/
theorem cover_resolution_exact (slug nfcPath : String)
    (entries : List (String × FSNode)) (s : Series) (c : String)
    (h : loadFromDir slug nfcPath entries = some s)
    (hc : (jsonOfEntry (jsonEntryOf entries)).cover = some c) (hcne : c ≠ "") :
    s.coverIndex =
        max 0 (jsFindIndex (fun p => p.id = slug ++ "-" ++ c) s.photos) ∧
      ((∀ p ∈ s.photos, p.id ≠ slug ++ "-" ++ c) →
        s.coverIndex = 0 ∧
          ((jsonOfEntry (jsonEntryOf entries)).bigger = none →
            s.biggerIndex = 0)) := by
  obtain rfl := loadFromDir_some h
  rw [assembleSeries_photos, assembleSeries_coverIndex, assembleSeries_biggerIndex]
  have hcov : coverIndexOf slug (jsonOfEntry (jsonEntryOf entries))
      (photosOf slug nfcPath (jsonOfEntry (jsonEntryOf entries)) entries) =
      max 0 (jsFindIndex (fun p => p.id = slug ++ "-" ++ c)
        (photosOf slug nfcPath (jsonOfEntry (jsonEntryOf entries)) entries)) := by
    unfold coverIndexOf
    rw [hc]
    simp only [if_neg hcne]
  refine ⟨hcov, fun hnone => ?_⟩
  have hfi : jsFindIndex (fun p => p.id = slug ++ "-" ++ c)
      (photosOf slug nfcPath (jsonOfEntry (jsonEntryOf entries)) entries) = -1 :=
    jsFindIndex_eq_neg_one (fun a ha => by
      simp only [decide_eq_false_iff_not]
      exact hnone a ha)
  have hc0 : coverIndexOf slug (jsonOfEntry (jsonEntryOf entries))
      (photosOf slug nfcPath (jsonOfEntry (jsonEntryOf entries)) entries) = 0 := by
    rw [hcov, hfi]
    decide
  refine ⟨hc0, fun hb => ?_⟩
  unfold biggerIndexOf
  rw [hb, hc0]

/-- Fixture for the C10 witness: cover key `corps01` for on-disk file
`Corps 01.webp` (casing/spacing difference only). -/
def w10Json : SeriesJson :=
  { cover := some "corps01",
    photos := some [("corps01", { title := some "T" })] }

/-- Fixture directory entries for the C10 witness. -/
def w10Entries : List (String × FSNode) :=
  [("series.json", .file (some w10Json)), ("Corps 01.webp", .file none)]

/-- The series the C10 witness loads. -/
def w10S : Series :=
  match loadFromDir "b" "b" w10Entries with
  | some s => s
  | none => assembleSeries "" "" []

/-- Witness for C10: the casing-differing cover key is unresolved, so
`coverIndex` (and `biggerIndex`) fall back to 0 even though the photo-metadata
matching did link the file to the `corps01` entry. -/
theorem cover_resolution_exact_witness :
    w10S.coverIndex = 0 ∧ w10S.biggerIndex = 0 := by
  have h := cover_resolution_exact "b" "b" w10Entries w10S "corps01" rfl rfl
    (by decide)
  have h2 := h.2 (by decide)
  exact ⟨h2.1, h2.2 rfl⟩

/-! ## Segment-by-segment NFC path resolution (C3) -/

/-- C3: `resolveSeriesPath` splits the NFC path into segments and walks them
one directory level at a time; at each level it takes the first real entry
whose NFC-normalized name equals the segment (so an NFD-stored name is
matched), returns not-found when no entry normalizes to the segment, and
returns not-found when the final resolved node is not a directory. -/
theorem resolve_path_nfc_walk :
    (∀ (root : List (String × FSNode)) (p : String), p ≠ "" →
      resolveSeriesPath root p = resolveGo (splitSlash p) (FSNode.dir root)) ∧
    (∀ (es : List (String × FSNode)) (seg : String) (rest : List String),
      es.find? (fun e => nfc e.1 = seg) = none →
      resolveGo (seg :: rest) (FSNode.dir es) = .ok none) ∧
    (∀ (es : List (String × FSNode)) (seg : String) (rest : List String)
      (n : String) (child : FSNode),
      es.find? (fun e => nfc e.1 = seg) = some (n, child) →
      resolveGo (seg :: rest) (FSNode.dir es) = resolveGo rest child) ∧
    (∀ parsed, resolveGo [] (FSNode.file parsed) = .ok none) ∧
    (∀ es, resolveGo [] (FSNode.dir es) = .ok (some es)) := by
  refine ⟨?_, ?_, ?_, fun _ => rfl, fun _ => rfl⟩
  · intro root p hp
    unfold resolveSeriesPath
    rw [if_neg hp]
  · intro es seg rest h
    rw [resolveGo, h]
  · intro es seg rest n child h
    rw [resolveGo, h]

/-- Fixture for the C3 witness: an on-disk directory stored in decomposed
(NFD) form, holding a subdirectory. -/
def w3Sub : List (String × FSNode) := [("x.webp", .file none)]

/-- Fixture root for the C3 witness; the first name is `E`, combining acute,
`t`, `e`, combining acute — the NFD spelling of `Été`. -/
def w3Root : List (String × FSNode) :=
  [("E\u0301te\u0301", .dir [("sub", .dir w3Sub), ("note.txt", .file none)])]

/-- Witness for C3: the composed path `Été/sub` resolves through the
NFD-stored directory name, an unmatched segment yields not-found, and a final
non-directory yields not-found. -/
theorem resolve_path_nfc_walk_witness :
    resolveSeriesPath w3Root "Été/sub" =
        resolveGo (splitSlash "Été/sub") (FSNode.dir w3Root) ∧
      resolveGo ["Été", "sub"] (FSNode.dir w3Root) =
        resolveGo ["sub"] (FSNode.dir [("sub", FSNode.dir w3Sub), ("note.txt", FSNode.file none)]) ∧
      resolveSeriesPath w3Root "Été/sub" = .ok (some w3Sub) ∧
      resolveGo ["Ghost"] (FSNode.dir w3Root) = .ok none ∧
      resolveSeriesPath w3Root "Été/note.txt" = .ok none := by
  refine ⟨resolve_path_nfc_walk.1 w3Root "Été/sub" (by decide), ?_, rfl, ?_, rfl⟩
  · exact resolve_path_nfc_walk.2.2.1 _ "\u00c9t\u00e9" ["sub"] "E\u0301te\u0301" _ (by rfl)
  · exact resolve_path_nfc_walk.2.1 w3Root "Ghost" [] (by rfl)

/-! ## Malformed metadata is recovered (C6) -/

theorem isNone_eq_not_isSome {α : Type} (o : Option α) : o.isNone = !o.isSome := by
  cases o <;> rfl

/-- `loadFromDir` depends on the entries only through the parsed metadata, the
entry names, and the presence of a `series.json` entry. -/
theorem loadFromDir_congr {slug nfcPath : String}
    {e1 e2 : List (String × FSNode)}
    (hjson : jsonOfEntry (jsonEntryOf e1) = jsonOfEntry (jsonEntryOf e2))
    (hnames : e1.map (fun e => e.1) = e2.map (fun e => e.1))
    (hsome : (jsonEntryOf e1).isSome = (jsonEntryOf e2).isSome) :
    loadFromDir slug nfcPath e1 = loadFromDir slug nfcPath e2 := by
  have hw : webpFilesOf e1 = webpFilesOf e2 := by unfold webpFilesOf; rw [hnames]
  have hv : videoFilesOf e1 = videoFilesOf e2 := by unfold videoFilesOf; rw [hnames]
  have ha : audioFilesOf e1 = audioFilesOf e2 := by unfold audioFilesOf; rw [hnames]
  have hp : pdfFilesOf e1 = pdfFilesOf e2 := by unfold pdfFilesOf; rw [hnames]
  have hm : hasAnyMediaOf e1 = hasAnyMediaOf e2 := by
    unfold hasAnyMediaOf; rw [hw, hv, ha]
  have hass : assembleSeries slug nfcPath e1 = assembleSeries slug nfcPath e2 := by
    unfold assembleSeries photosOf
    rw [hjson, hw, hv, ha, hp, hsome]
  unfold loadFromDir
  rw [hm, hass, isNone_eq_not_isSome, isNone_eq_not_isSome, hsome]

/-- Replacement of the `series.json` entry contents by a successfully parsed
empty metadata document. -/
def repairJson (entries : List (String × FSNode)) : List (String × FSNode) :=
  entries.map (fun e => if e.1 = "series.json" then (e.1, FSNode.file (some {})) else e)

theorem repairJson_names (entries : List (String × FSNode)) :
    (repairJson entries).map (fun e => e.1) = entries.map (fun e => e.1) := by
  unfold repairJson
  rw [List.map_map]
  exact List.map_congr_left (fun a _ => by
    dsimp only [Function.comp]
    split <;> rfl)

theorem repairJson_jsonEntry {entries : List (String × FSNode)} {node : FSNode}
    (h : jsonEntryOf entries = some ("series.json", node)) :
    jsonEntryOf (repairJson entries) =
      some ("series.json", FSNode.file (some {})) := by
  unfold jsonEntryOf repairJson at *
  rw [List.find?_map]
  have hcomp : ((fun e : String × FSNode => decide (e.1 = "series.json")) ∘
      (fun e : String × FSNode =>
        if e.1 = "series.json" then (e.1, FSNode.file (some {})) else e)) =
      (fun e : String × FSNode => decide (e.1 = "series.json")) := by
    funext e
    by_cases he : e.1 = "series.json" <;> simp [Function.comp, he]
  rw [hcomp, h]
  simp

/-- Pass 1 with empty metadata: one default photo per file, titled by the
filename stem. -/
theorem photosPass_empty_json (slug nfcPath : String) :
    ∀ files, photosPass slug nfcPath [] [] files =
      (files.map (fun file =>
        ({ id := slug ++ "-" ++ nfc (stripSuffixStr file ".webp")
           src := encodePathForUrl ("/series/" ++ nfcPath ++ "/" ++ nfc file)
           alt := nfc (stripSuffixStr file ".webp")
           width := 1200
           height := 800
           orientation := orientationOf 1200 800
           seriesId := slug } : Photo)),
       files.map (fun file => nfc (stripSuffixStr file ".webp"))) := by
  intro files
  induction files with
  | nil => rfl
  | cons file rest ih =>
    rw [photosPass, ih]
    rfl

/-- Photo assembly with empty metadata: exactly the on-disk images with
filename-stem titles and default dimensions. -/
theorem photosOf_empty_json (slug nfcPath : String)
    (entries : List (String × FSNode)) :
    photosOf slug nfcPath {} entries =
      (webpFilesOf entries).map (fun file =>
        ({ id := slug ++ "-" ++ nfc (stripSuffixStr file ".webp")
           src := encodePathForUrl ("/series/" ++ nfcPath ++ "/" ++ nfc file)
           alt := nfc (stripSuffixStr file ".webp")
           width := 1200
           height := 800
           orientation := orientationOf 1200 800
           seriesId := slug } : Photo)) := by
  show (photosPass slug nfcPath [] [] (webpFilesOf entries)).1 ++
      placeholderPass slug
        (photosPass slug nfcPath [] [] (webpFilesOf entries)).2 210 [] = _
  rw [photosPass_empty_json]
  simp [placeholderPass]

/-- C6: a `series.json` whose contents fail to parse is treated as an empty
metadata document — loading gives the same result as if the file had parsed to
the empty document — and, when on-disk images exist, the series still loads
with one photo per image, titled by the filename stem with default
dimensions. -/
theorem malformed_json_recovered (slug nfcPath : String)
    (entries : List (String × FSNode))
    (h : jsonEntryOf entries = some ("series.json", FSNode.file none)) :
    loadFromDir slug nfcPath entries =
        loadFromDir slug nfcPath (repairJson entries) ∧
      (∀ f ∈ entries.map (fun e => e.1), strEndsWith f ".webp" = true →
        ∃ s, loadFromDir slug nfcPath entries = some s ∧
          s.photos.length = (webpFilesOf entries).length ∧
          ∀ p ∈ s.photos, ∃ g ∈ webpFilesOf entries,
            p.alt = nfc (stripSuffixStr g ".webp") ∧
              p.width = 1200 ∧ p.height = 800) := by
  have hjson1 : jsonOfEntry (jsonEntryOf entries) = {} := by rw [h]; rfl
  constructor
  · apply loadFromDir_congr
    · rw [hjson1, repairJson_jsonEntry h]
      rfl
    · exact (repairJson_names entries).symm
    · rw [h, repairJson_jsonEntry h]
      rfl
  · intro f hf hwebp
    refine ⟨assembleSeries slug nfcPath entries, ?_, ?_, ?_⟩
    · unfold loadFromDir
      rw [if_neg]
      rw [h]
      simp
    · rw [assembleSeries_photos, hjson1, photosOf_empty_json]
      simp
    · intro p hp
      rw [assembleSeries_photos, hjson1, photosOf_empty_json] at hp
      obtain ⟨g, hg, rfl⟩ := List.mem_map.mp hp
      exact ⟨g, hg, rfl, rfl, rfl⟩

/-- Fixture for the C6 witness: a malformed `series.json` next to one image. -/
def w6Entries : List (String × FSNode) :=
  [("series.json", .file none), ("photo.webp", .file none)]

/-- Witness for C6 at a concrete directory. -/
theorem malformed_json_recovered_witness :
    loadFromDir "a" "a" w6Entries = loadFromDir "a" "a" (repairJson w6Entries) ∧
      (∃ s, loadFromDir "a" "a" w6Entries = some s ∧
        s.photos.length = (webpFilesOf w6Entries).length ∧
        ∀ p ∈ s.photos, ∃ g ∈ webpFilesOf w6Entries,
          p.alt = nfc (stripSuffixStr g ".webp") ∧
            p.width = 1200 ∧ p.height = 800) := by
  have h := malformed_json_recovered "a" "a" w6Entries rfl
  exact ⟨h.1, h.2 "photo.webp" (by decide) (by decide)⟩

/-! ## Metadata-only folders (C8) -/

/-- Fixture refuting C8 as stated: a metadata-only folder whose document
declares a photo entry. -/
def c8Json : SeriesJson := { photos := some [("p1", {})] }

/-- Fixture root for the C8 counterexample. -/
def c8Root : List (String × FSNode) :=
  [("a", .dir [("series.json", .file (some c8Json))])]

/-- The series the C8 counterexample loads. -/
def c8S : Series :=
  match getSeriesBySlug c8Root "a" with
  | .ok (some s) => s
  | _ => assembleSeries "" "" []

/-- Counterexample to C8 as stated: this metadata-only folder loads, but its
`photos` array is NOT empty — it contains a placeholder synthesized for the
declared `p1` entry. -/
theorem metadata_only_folder_counterexample :
    getSeriesBySlug c8Root "a" = .ok (some c8S) ∧ c8S.photos ≠ [] :=
  ⟨rfl, by decide⟩

/-- C8 (amended): a folder containing a `series.json` entry but no media
files of any kind still loads successfully; its `photos` array consists
exactly of the placeholders synthesized for the metadata-declared photo
entries, and is empty when the document declares no photo entries. -/
theorem metadata_only_folder_loads (slug nfcPath : String)
    (entries : List (String × FSNode))
    (hjson : (jsonEntryOf entries).isSome = true)
    (hw : webpFilesOf entries = []) (hv : videoFilesOf entries = [])
    (ha : audioFilesOf entries = []) :
    ∃ s, loadFromDir slug nfcPath entries = some s ∧
      s.photos = placeholderPass slug [] 210
        ((jsonOfEntry (jsonEntryOf entries)).photos.getD []) ∧
      ((jsonOfEntry (jsonEntryOf entries)).photos.getD [] = [] →
        s.photos = []) := by
  have hload : loadFromDir slug nfcPath entries =
      some (assembleSeries slug nfcPath entries) := by
    unfold loadFromDir
    rw [if_neg]
    rw [isNone_eq_not_isSome, hjson]
    simp
  refine ⟨assembleSeries slug nfcPath entries, hload, ?_, ?_⟩
  · rw [assembleSeries_photos]
    unfold photosOf
    rw [hw]
    show (photosPass slug nfcPath _ _ []).1 ++ _ = _
    rw [photosPass]
    rw [List.nil_append]
  · intro hempty
    rw [assembleSeries_photos]
    unfold photosOf
    rw [hw, hempty]
    show (photosPass slug nfcPath _ _ []).1 ++ _ = _
    rw [photosPass]
    rw [List.nil_append]
    rfl

/-- Fixture for the C8 amended-claim witness: metadata-only folder with no
declared photos. -/
def w8Entries : List (String × FSNode) :=
  [("series.json", .file (some { title := some "T" })), ("doc.pdf", .file none)]

/-- Witness for the amended C8 at a concrete directory: loads with an empty
photo list. -/
theorem metadata_only_folder_loads_witness :
    ∃ s, loadFromDir "a" "a" w8Entries = some s ∧
      s.photos = placeholderPass "a" [] 210
        ((jsonOfEntry (jsonEntryOf w8Entries)).photos.getD []) ∧
      ((jsonOfEntry (jsonEntryOf w8Entries)).photos.getD [] = [] →
        s.photos = []) :=
  metadata_only_folder_loads "a" "a" w8Entries rfl rfl rfl rfl

/-! ## Declared-but-missing photos get placeholders (C2) -/

/-- The `photos` map of the loaded metadata document. -/
def photosJsonOf (entries : List (String × FSNode)) : List (String × PhotoMeta) :=
  (jsonOfEntry (jsonEntryOf entries)).photos.getD []

/-- The `handledNames` set after pass 1: the JSON keys consumed by discovered
`.webp` files. -/
def handledNamesOf (slug nfcPath : String)
    (entries : List (String × FSNode)) : List String :=
  (photosPass slug nfcPath (photosJsonOf entries)
    (normalizedKeysOf (photosJsonOf entries)) (webpFilesOf entries)).2

/-- The metadata entries with no matching on-disk file: those whose key was
not consumed by pass 1. -/
def unhandledMeta (photosJson : List (String × PhotoMeta))
    (handled : List String) : List (String × PhotoMeta) :=
  photosJson.filter (fun kv => !handled.contains kv.1)

theorem photosOf_decomposition (slug nfcPath : String)
    (entries : List (String × FSNode)) :
    photosOf slug nfcPath (jsonOfEntry (jsonEntryOf entries)) entries =
      (photosPass slug nfcPath (photosJsonOf entries)
        (normalizedKeysOf (photosJsonOf entries)) (webpFilesOf entries)).1 ++
      placeholderPass slug (handledNamesOf slug nfcPath entries) 210
        (photosJsonOf entries) := rfl

/-- The i-th unconsumed metadata entry appears in pass 2 as a placeholder
photo with hue `hue + 12 * i`. -/
theorem placeholderPass_mem (slug : String) :
    ∀ (l : List (String × PhotoMeta)) (handled : List String) (hue i : Nat)
      (kv : String × PhotoMeta),
      (unhandledMeta l handled).get? i = some kv →
      placeholderPhoto slug kv.1 kv.2 (hue + 12 * i) ∈
        placeholderPass slug handled hue l := by
  intro l
  induction l with
  | nil => intro handled hue i kv h; simp [unhandledMeta] at h
  | cons nm rest ih =>
    intro handled hue i kv h
    obtain ⟨name, meta⟩ := nm
    by_cases hc : handled.contains name
    · rw [placeholderPass, if_pos hc]
      unfold unhandledMeta at h
      rw [List.filter_cons_of_neg (by simp; exact List.mem_of_elem_eq_true hc)] at h
      exact ih handled hue i kv h
    · rw [placeholderPass, if_neg hc]
      unfold unhandledMeta at h
      rw [List.filter_cons_of_pos
        (by simp; exact fun hm => hc (List.elem_eq_true_of_mem hm))] at h
      cases i with
      | zero =>
        rw [List.get?_cons_zero, Option.some_inj] at h
        subst h
        rw [Nat.mul_zero, Nat.add_zero]
        exact List.mem_cons_self _ _
      | succ j =>
        rw [List.get?_cons_succ] at h
        have := ih handled (hue + 12) j kv h
        have harith : hue + 12 + 12 * j = hue + 12 * (j + 1) := by ring
        rw [harith] at this
        exact List.mem_cons_of_mem _ this

/-- C2: every metadata photos entry not consumed by a discovered file still
yields a Photo in the assembled series: a synthesized placeholder SVG source
carrying the declared dimensions, with a hue that shifts by 12 per successive
placeholder (so distinct placeholders get distinct hues). -/
theorem declared_missing_photos_kept (slug nfcPath : String)
    (entries : List (String × FSNode)) (s : Series)
    (h : loadFromDir slug nfcPath entries = some s) :
    ∀ (i : Nat) (kv : String × PhotoMeta),
      (unhandledMeta (photosJsonOf entries)
        (handledNamesOf slug nfcPath entries)).get? i = some kv →
      ∃ p ∈ s.photos,
        p.id = slug ++ "-" ++ kv.1 ∧
        p.src = placeholderSvg (kv.2.width.getD 1200) (kv.2.height.getD 800)
          (210 + 12 * i) ∧
        p.width = kv.2.width.getD 1200 ∧
        p.height = kv.2.height.getD 800 ∧
        p.alt = kv.2.title.getD kv.1 ∧
        (∀ j : Nat, j ≠ i → 210 + 12 * j ≠ 210 + 12 * i) := by
  obtain rfl := loadFromDir_some h
  intro i kv hkv
  rw [assembleSeries_photos, photosOf_decomposition]
  refine ⟨placeholderPhoto slug kv.1 kv.2 (210 + 12 * i), ?_, rfl, rfl, rfl, rfl, rfl, ?_⟩
  · exact List.mem_append_right _
      (placeholderPass_mem slug (photosJsonOf entries)
        (handledNamesOf slug nfcPath entries) 210 i kv hkv)
  · intro j hj
    omega

/-- Fixture for the C2 witness: two declared photo entries with no matching
file, next to one real image. -/
def w2Json : SeriesJson :=
  { photos := some [("ghost", { width := some 600, height := some 400 }),
                    ("real", {}), ("ghost2", {})] }

/-- Fixture directory entries for the C2 witness. -/
def w2Entries : List (String × FSNode) :=
  [("series.json", .file (some w2Json)), ("real.webp", .file none)]

/-- The series the C2 witness loads. -/
def w2S : Series :=
  match loadFromDir "a" "a" w2Entries with
  | some s => s
  | none => assembleSeries "" "" []

/-- Witness for C2: both dangling entries appear as placeholders, with
declared dimensions preserved and hues 210 and 222. -/
theorem declared_missing_photos_kept_witness :
    (∃ p ∈ w2S.photos, p.id = "a" ++ "-" ++ "ghost" ∧
        p.src = placeholderSvg 600 400 (210 + 12 * 0) ∧
        p.width = 600 ∧ p.height = 400 ∧ p.alt = "ghost" ∧
        (∀ j : Nat, j ≠ 0 → 210 + 12 * j ≠ 210 + 12 * 0)) ∧
      (∃ p ∈ w2S.photos, p.id = "a" ++ "-" ++ "ghost2" ∧
        p.src = placeholderSvg 1200 800 (210 + 12 * 1) ∧
        p.width = 1200 ∧ p.height = 800 ∧ p.alt = "ghost2" ∧
        (∀ j : Nat, j ≠ 1 → 210 + 12 * j ≠ 210 + 12 * 1)) := by
  have h0 := declared_missing_photos_kept "a" "a" w2Entries w2S rfl 0
    ("ghost", { width := some 600, height := some 400 }) (by rfl)
  have h1 := declared_missing_photos_kept "a" "a" w2Entries w2S rfl 1
    ("ghost2", {}) (by rfl)
  exact ⟨h0, h1⟩

/-! ## Normalized filename/key matching (C4) -/

theorem mem_insertStr {a x : String} {l : List String} :
    a ∈ insertStr x l ↔ a = x ∨ a ∈ l := by
  induction l with
  | nil => simp [insertStr]
  | cons b rest ih =>
    rw [insertStr]
    split
    · simp
    · rw [List.mem_cons, List.mem_cons, ih]
      tauto

theorem mem_sortStr {a : String} {l : List String} : a ∈ sortStr l ↔ a ∈ l := by
  induction l with
  | nil => simp [sortStr]
  | cons b rest ih =>
    rw [sortStr, mem_insertStr, ih, List.mem_cons]

theorem mem_webpFilesOf {entries : List (String × FSNode)} {f : String}
    {nd : FSNode} (hmem : (f, nd) ∈ entries)
    (hwebp : strEndsWith f ".webp" = true) : f ∈ webpFilesOf entries := by
  unfold webpFilesOf
  rw [mem_sortStr, List.mem_filter]
  exact ⟨List.mem_map.mpr ⟨(f, nd), hmem, rfl⟩, hwebp⟩

theorem photosPass_fst (slug nfcPath : String)
    (photosJson : List (String × PhotoMeta))
    (normKeys : List (String × String)) :
    ∀ files, (photosPass slug nfcPath photosJson normKeys files).1 =
      files.map (passPhoto slug nfcPath photosJson normKeys) := by
  intro files
  induction files with
  | nil => rfl
  | cons file rest ih => rw [photosPass]; rw [List.map_cons, ← ih]

theorem mapGet_mapSet (m : List (String × String)) (k v x : String) :
    mapGet (mapSet m k v) x = if x = k then some v else mapGet m x := by
  unfold mapSet
  by_cases hany : m.any (fun kv => kv.1 = k)
  · rw [if_pos hany]
    unfold mapGet
    rw [List.find?_map]
    by_cases hx : x = k
    · subst hx
      have hpred : ((fun kv : String × String => decide (kv.1 = x)) ∘
          (fun kv => if kv.1 = x then (x, v) else kv)) =
          (fun kv : String × String => decide (kv.1 = x)) := by
        funext kv
        by_cases h : kv.1 = x <;> simp [Function.comp, h]
      rw [hpred, if_pos rfl]
      obtain ⟨kv0, hkv0, hp⟩ := List.any_eq_true.mp hany
      have hs : (m.find? (fun kv : String × String => decide (kv.1 = x))).isSome := by
        rw [List.find?_isSome]
        exact ⟨kv0, hkv0, by simpa using hp⟩
      obtain ⟨kv1, hkv1⟩ := Option.isSome_iff_exists.mp hs
      rw [hkv1]
      have : kv1.1 = x := by simpa using List.find?_some hkv1
      simp [this]
    · have hpred : ((fun kv : String × String => decide (kv.1 = x)) ∘
          (fun kv => if kv.1 = k then (k, v) else kv)) =
          (fun kv : String × String => decide (kv.1 = x)) := by
        funext kv
        by_cases h : kv.1 = k
        · simp [Function.comp, h]
        · simp [Function.comp, h]
      rw [hpred, if_neg hx]
      cases hf : m.find? (fun kv : String × String => decide (kv.1 = x)) with
      | none => rfl
      | some kv1 =>
        have h1 : kv1.1 = x := by simpa using List.find?_some hf
        simp [h1, hx]
  · rw [if_neg hany]
    unfold mapGet
    rw [List.find?_append]
    by_cases hx : x = k
    · subst hx
      have hnone : m.find? (fun kv : String × String => decide (kv.1 = x)) = none := by
        rw [List.find?_eq_none]
        intro kv hkv
        simp only [decide_eq_true_eq]
        intro he
        rw [List.any_eq_true] at hany
        exact hany ⟨kv, hkv, by simpa using he⟩
      rw [hnone, if_pos rfl]
      simp [List.find?]
    · cases hf : m.find? (fun kv : String × String => decide (kv.1 = x)) with
      | none =>
        rw [if_neg hx]
        simp only [Option.none_or]
        have : List.find? (fun kv : String × String => decide (kv.1 = x)) [(k, v)] = none := by
          rw [List.find?_eq_none]
          intro kv hkv
          simp at hkv
          subst hkv
          simp only [decide_eq_true_eq]
          exact fun h => hx h.symm
        rw [this]
      | some kv1 => rw [if_neg hx]; rfl

theorem normalizedKeys_get :
    ∀ (ps : List (String × PhotoMeta)) (m : List (String × String)) (x : String),
      mapGet (ps.foldl (fun m kv => mapSet m (normalizePhotoName kv.1) kv.1) m) x =
        (match ps.reverse.find?
            (fun kv => normalizePhotoName kv.1 = x) with
         | some kv => some kv.1
         | none => mapGet m x) := by
  intro ps
  induction ps with
  | nil => intro m x; rfl
  | cons kv0 rest ih =>
    intro m x
    rw [List.foldl_cons, ih, List.reverse_cons, List.find?_append]
    cases hf : rest.reverse.find? (fun kv => normalizePhotoName kv.1 = x) with
    | some kv => rfl
    | none =>
      simp only [Option.none_or]
      rw [mapGet_mapSet]
      by_cases hx : normalizePhotoName kv0.1 = x
      · have : List.find? (fun kv : String × PhotoMeta =>
            decide (normalizePhotoName kv.1 = x)) [kv0] = some kv0 := by
          simp [List.find?, hx]
        rw [this, if_pos hx.symm]
      · have : List.find? (fun kv : String × PhotoMeta =>
            decide (normalizePhotoName kv.1 = x)) [kv0] = none := by
          simp [List.find?, hx]
        rw [this, if_neg (fun h => hx h.symm)]

/-- Under a uniquely normalized-matching key, the side map resolves the
normalized stem to that key. -/
theorem normalizedKeysOf_get_unique {ps : List (String × PhotoMeta)}
    {x k : String} (hk : ∃ m, (k, m) ∈ ps) (hnorm : normalizePhotoName k = x)
    (huniq : ∀ kv ∈ ps, normalizePhotoName kv.1 = x → kv.1 = k) :
    mapGet (normalizedKeysOf ps) x = some k := by
  unfold normalizedKeysOf
  rw [normalizedKeys_get]
  obtain ⟨mm, hmm⟩ := hk
  have hs : (ps.reverse.find? (fun kv => normalizePhotoName kv.1 = x)).isSome := by
    rw [List.find?_isSome]
    exact ⟨(k, mm), List.mem_reverse.mpr hmm, by simpa using hnorm⟩
  obtain ⟨kv1, hkv1⟩ := Option.isSome_iff_exists.mp hs
  rw [hkv1]
  have h1 : normalizePhotoName kv1.1 = x := by simpa using List.find?_some hkv1
  have h2 : kv1 ∈ ps := List.mem_reverse.mp (List.mem_of_find?_eq_some hkv1)
  show some kv1.1 = some k
  exact congrArg some (huniq kv1 h2 h1)

/-- With no normalized match at all, the side map lookup fails. -/
theorem normalizedKeysOf_get_none {ps : List (String × PhotoMeta)} {x : String}
    (h : ∀ kv ∈ ps, normalizePhotoName kv.1 ≠ x) :
    mapGet (normalizedKeysOf ps) x = none := by
  unfold normalizedKeysOf
  rw [normalizedKeys_get]
  have : ps.reverse.find? (fun kv => normalizePhotoName kv.1 = x) = none := by
    rw [List.find?_eq_none]
    intro kv hkv
    simp only [decide_eq_true_eq]
    exact h kv (List.mem_reverse.mp hkv)
  rw [this]
  rfl

/-- C4: a discovered `.webp` file appears among the photos; when a metadata
key matches its stem after normalization (lowercasing, collapsing
spaces/underscores/hyphens) — uniquely so — the photo carries that entry's
title/dimensions/annotations, and when no key matches, the photo's title
defaults to the raw filename stem. -/
theorem filename_metadata_matching (slug nfcPath : String)
    (entries : List (String × FSNode)) (s : Series) (f : String) (nd : FSNode)
    (h : loadFromDir slug nfcPath entries = some s)
    (hmem : (f, nd) ∈ entries) (hwebp : strEndsWith f ".webp" = true) :
    (∀ k meta, assocFind (photosJsonOf entries) k = some meta →
      normalizePhotoName k = normalizePhotoName (nfc (stripSuffixStr f ".webp")) →
      (∀ kv ∈ photosJsonOf entries,
        normalizePhotoName kv.1 =
          normalizePhotoName (nfc (stripSuffixStr f ".webp")) → kv.1 = k) →
      ∃ p ∈ s.photos,
        p.id = slug ++ "-" ++ nfc (stripSuffixStr f ".webp") ∧
        p.alt = meta.title.getD (nfc (stripSuffixStr f ".webp")) ∧
        p.width = meta.width.getD 1200 ∧ p.height = meta.height.getD 800 ∧
        p.intentionNote = meta.intentionNote ∧ p.technical = meta.technical ∧
        p.date = meta.date) ∧
    ((∀ kv ∈ photosJsonOf entries,
        normalizePhotoName kv.1 ≠
          normalizePhotoName (nfc (stripSuffixStr f ".webp"))) →
      ∃ p ∈ s.photos,
        p.id = slug ++ "-" ++ nfc (stripSuffixStr f ".webp") ∧
        p.alt = nfc (stripSuffixStr f ".webp") ∧
        p.width = 1200 ∧ p.height = 800) := by
  obtain rfl := loadFromDir_some h
  have hf : f ∈ webpFilesOf entries := mem_webpFilesOf hmem hwebp
  have hmemp : passPhoto slug nfcPath (photosJsonOf entries)
      (normalizedKeysOf (photosJsonOf entries)) f ∈
      (assembleSeries slug nfcPath entries).photos := by
    rw [assembleSeries_photos, photosOf_decomposition]
    apply List.mem_append_left
    rw [photosPass_fst]
    exact List.mem_map.mpr ⟨f, hf, rfl⟩
  constructor
  · intro k meta hmeta hnorm huniq
    have hkmem : (k, meta) ∈ photosJsonOf entries := by
      unfold assocFind at hmeta
      obtain ⟨kv, hkv, hkv2⟩ := Option.map_eq_some'.mp hmeta
      obtain ⟨a, b⟩ := kv
      have ha : a = k := by simpa using List.find?_some hkv
      have hb : b = meta := hkv2
      subst ha; subst hb
      exact List.mem_of_find?_eq_some hkv
    have hkey : passKey (normalizedKeysOf (photosJsonOf entries)) f = k := by
      unfold passKey
      rw [normalizedKeysOf_get_unique ⟨meta, hkmem⟩ hnorm huniq]
      rfl
    refine ⟨passPhoto slug nfcPath (photosJsonOf entries)
      (normalizedKeysOf (photosJsonOf entries)) f, hmemp, rfl, ?_, ?_, ?_, ?_, ?_, ?_⟩
    all_goals simp [passPhoto, hkey, hmeta]
  · intro hnone
    have hget : mapGet (normalizedKeysOf (photosJsonOf entries))
        (normalizePhotoName (nfc (stripSuffixStr f ".webp"))) = none :=
      normalizedKeysOf_get_none hnone
    have hkey : passKey (normalizedKeysOf (photosJsonOf entries)) f =
        nfc (stripSuffixStr f ".webp") := by
      unfold passKey
      rw [hget]
      rfl
    have hfind : assocFind (photosJsonOf entries)
        (nfc (stripSuffixStr f ".webp")) = none := by
      unfold assocFind
      rw [List.find?_eq_none.mpr]
      · rfl
      · intro kv hkv
        simp only [decide_eq_true_eq]
        intro he
        exact hnone kv hkv (he ▸ rfl)
    refine ⟨passPhoto slug nfcPath (photosJsonOf entries)
      (normalizedKeysOf (photosJsonOf entries)) f, hmemp, rfl, ?_, ?_, ?_⟩
    all_goals simp [passPhoto, hkey, hfind]

/-- Witness for C4: file `Corps 01.webp` links to metadata key `corps01`
(casing/spacing difference) and carries its title; an unmatched file defaults
to its raw stem. -/
theorem filename_metadata_matching_witness :
    (∃ p ∈ w10S.photos,
      p.id = "b" ++ "-" ++ nfc (stripSuffixStr "Corps 01.webp" ".webp") ∧
      p.alt = (some "T").getD (nfc (stripSuffixStr "Corps 01.webp" ".webp")) ∧
      p.width = (none : Option Nat).getD 1200 ∧
      p.height = (none : Option Nat).getD 800 ∧
      p.intentionNote = none ∧ p.technical = none ∧ p.date = none) ∧
    (∃ s6, loadFromDir "a" "a" w6Entries = some s6 ∧
      ∃ p ∈ s6.photos,
        p.id = "a" ++ "-" ++ nfc (stripSuffixStr "photo.webp" ".webp") ∧
        p.alt = nfc (stripSuffixStr "photo.webp" ".webp") ∧
        p.width = 1200 ∧ p.height = 800) := by
  constructor
  · have h := filename_metadata_matching "b" "b" w10Entries w10S "Corps 01.webp"
      (.file none) rfl (List.mem_cons_of_mem _ (List.mem_cons_self _ _)) (by decide)
    exact h.1 "corps01" { title := some "T" } rfl (by decide) (by decide)
  · refine ⟨assembleSeries "a" "a" w6Entries, rfl, ?_⟩
    have h := filename_metadata_matching "a" "a" w6Entries
      (assembleSeries "a" "a" w6Entries) "photo.webp"
      (.file none) rfl (List.mem_cons_of_mem _ (List.mem_cons_self _ _)) (by decide)
    exact h.2 (by decide)

/-! ## Discovery registration condition and skips (C7) -/

/-- Modelled from the spec: "A directory qualifies as a series if it contains
a metadata file OR at least one recognized media file (image, video, or
audio — a folder containing only PDFs does not qualify on its own)." -/
def qualifiesAsSeries (es : List (String × FSNode)) : Bool :=
  es.any (fun e => e.2.isFileB &&
    (e.1 == "series.json" || strEndsWith e.1 ".webp" ||
      videoExtensions.any (fun ext => strEndsWith (jsLowerStr e.1) ext) ||
      audioExtensions.any (fun ext => strEndsWith (jsLowerStr e.1) ext)))

/-- The source's registration condition coincides with the spec's
qualification condition. -/
theorem registers_eq_qualifies : ∀ es, registersAsSeries es = qualifiesAsSeries es := by
  intro es
  rw [Bool.eq_iff_iff]
  simp only [registersAsSeries, qualifiesAsSeries, hasJsonEntry, hasWebpEntry,
    hasVideoEntry, hasAudioEntry, List.any_eq_true, Bool.or_eq_true,
    Bool.and_eq_true]
  constructor
  · rintro (((⟨e, he, hf, hx⟩ | ⟨e, he, hf, hx⟩) | ⟨e, he, hf, hx⟩) | ⟨e, he, hf, hx⟩)
    · exact ⟨e, he, hf, Or.inl (Or.inl (Or.inl hx))⟩
    · exact ⟨e, he, hf, Or.inl (Or.inl (Or.inr hx))⟩
    · exact ⟨e, he, hf, Or.inl (Or.inr hx)⟩
    · exact ⟨e, he, hf, Or.inr hx⟩
  · rintro ⟨e, he, hf, ((hx | hx) | hx) | hx⟩
    · exact Or.inl (Or.inl (Or.inl ⟨e, he, hf, hx⟩))
    · exact Or.inl (Or.inl (Or.inr ⟨e, he, hf, hx⟩))
    · exact Or.inl (Or.inr ⟨e, he, hf, hx⟩)
    · exact Or.inr ⟨e, he, hf, hx⟩

theorem list_beq_eq {l1 l2 : List Char} (h : (l1 == l2) = true) : l1 = l2 := by
  exact eq_of_beq h

/-- Two anchored suffixes of the same string agree on the shorter length. -/
theorem suffix_clash {f a b : String} (ha : strEndsWith f a = true)
    (hb : strEndsWith f b = true) (hlen : a.data.length ≤ b.data.length) :
    a.data.reverse = b.data.reverse.take a.data.length := by
  unfold strEndsWith at ha hb
  have ha' : f.data.reverse.take a.data.length = a.data.reverse := eq_of_beq ha
  have hb' : f.data.reverse.take b.data.length = b.data.reverse := eq_of_beq hb
  calc a.data.reverse = f.data.reverse.take a.data.length := ha'.symm
    _ = (f.data.reverse.take b.data.length).take a.data.length := by
        rw [List.take_take, Nat.min_eq_left hlen]
    _ = b.data.reverse.take a.data.length := by rw [hb']

/-- A suffix made of characters fixed by `toLowerCase` survives lowering. -/
theorem lower_endsWith {f s : String} (h : strEndsWith f s = true)
    (hfix : ∀ c ∈ s.data, jsToLower c = c) :
    strEndsWith (jsLowerStr f) s = true := by
  unfold strEndsWith at h ⊢
  have h' : f.data.reverse.take s.data.length = s.data.reverse := eq_of_beq h
  unfold jsLowerStr
  show ((f.data.map jsToLower).reverse.take s.data.length == s.data.reverse) = true
  rw [← List.map_reverse, ← List.map_take, h']
  have : s.data.reverse.map jsToLower = s.data.reverse := by
    conv_rhs => rw [← List.map_id s.data.reverse]
    exact List.map_congr_left (fun c hc => hfix c (List.mem_reverse.mp hc))
  rw [this]
  exact beq_self_eq_true _

/-- A `.pdf` file never counts as a recognized video/audio file. -/
theorem no_pdf_media {f ext : String} (hf : strEndsWith f ".pdf" = true)
    (hext : ext ∈ videoExtensions ∨ ext ∈ audioExtensions)
    (h : strEndsWith (jsLowerStr f) ext = true) : False := by
  have hlow : strEndsWith (jsLowerStr f) ".pdf" = true :=
    lower_endsWith hf (by decide)
  simp only [videoExtensions, audioExtensions, List.mem_cons,
    List.mem_singleton, List.not_mem_nil, or_false] at hext
  rcases hext with (rfl | rfl | rfl) | (rfl | rfl | rfl | rfl | rfl)
  · exact absurd (suffix_clash h hlow (by decide)) (by decide)
  · exact absurd (suffix_clash h hlow (by decide)) (by decide)
  · exact absurd (suffix_clash hlow h (by decide)) (by decide)
  · exact absurd (suffix_clash h hlow (by decide)) (by decide)
  · exact absurd (suffix_clash h hlow (by decide)) (by decide)
  · exact absurd (suffix_clash h hlow (by decide)) (by decide)
  · exact absurd (suffix_clash h hlow (by decide)) (by decide)
  · exact absurd (suffix_clash h hlow (by decide)) (by decide)

/-- A directory whose entries are all `.pdf` files does not register. -/
theorem pdf_only_not_registered {es : List (String × FSNode)}
    (he : ∀ e ∈ es, e.2.isFileB = true ∧ strEndsWith e.1 ".pdf" = true) :
    registersAsSeries es = false := by
  unfold registersAsSeries hasJsonEntry hasWebpEntry hasVideoEntry hasAudioEntry
  have hj : ∀ e ∈ es, ¬(e.2.isFileB && e.1 == "series.json") = true := by
    intro e hee hc
    rw [Bool.and_eq_true] at hc
    have hname : e.1 = "series.json" := by simpa using hc.2
    have hpdf := (he e hee).2
    rw [hname] at hpdf
    exact absurd hpdf (by decide)
  have hw : ∀ e ∈ es, ¬(e.2.isFileB && strEndsWith e.1 ".webp") = true := by
    intro e hee hc
    rw [Bool.and_eq_true] at hc
    exact absurd (suffix_clash (he e hee).2 hc.2 (by decide)) (by decide)
  have hv : ∀ e ∈ es,
      ¬(e.2.isFileB && videoExtensions.any fun ext => strEndsWith (jsLowerStr e.1) ext) = true := by
    intro e hee hc
    rw [Bool.and_eq_true] at hc
    obtain ⟨ext, hm, hx⟩ := List.any_eq_true.mp hc.2
    exact no_pdf_media (he e hee).2 (Or.inl hm) hx
  have ha : ∀ e ∈ es,
      ¬(e.2.isFileB && audioExtensions.any fun ext => strEndsWith (jsLowerStr e.1) ext) = true := by
    intro e hee hc
    rw [Bool.and_eq_true] at hc
    obtain ⟨ext, hm, hx⟩ := List.any_eq_true.mp hc.2
    exact no_pdf_media (he e hee).2 (Or.inr hm) hx
  rw [List.any_eq_false.mpr hj, List.any_eq_false.mpr hw,
    List.any_eq_false.mpr hv, List.any_eq_false.mpr ha]
  rfl

/-- A list of file entries produces no subdirectory traversal. -/
theorem findSubsWith_all_files
    (f : List (String × FSNode) → String → List (String × String) →
      List String × List (String × String)) :
    ∀ (es : List (String × FSNode)) (cp : String) (m : List (String × String)),
      (∀ e ∈ es, e.2.isFileB = true) → findSubsWith f es cp m = ([], m) := by
  intro es
  induction es with
  | nil => intro cp m _; rfl
  | cons e rest ih =>
    intro cp m he
    obtain ⟨n, node⟩ := e
    cases node with
    | file p =>
      rw [findSubsWith]
      exact ih cp m (fun x hx => he x (List.mem_cons_of_mem _ hx))
    | dir es' =>
      exact absurd (he (n, .dir es') (List.mem_cons_self _ _)) (by simp [FSNode.isFileB])

/-- The subdirectory filter: dropping `.`-prefixed / `Icon` directories from
the entry list does not change the traversal at all. -/
theorem findSubsWith_skip
    (f : List (String × FSNode) → String → List (String × String) →
      List String × List (String × String)) :
    ∀ (es : List (String × FSNode)) (cp : String) (m : List (String × String)),
      findSubsWith f es cp m =
        findSubsWith f
          (es.filter (fun e => !(e.2.isDirB &&
            (strStartsWith e.1 "." || e.1 == "Icon" || strStartsWith e.1 "Icon\r"))))
          cp m := by
  intro es
  induction es with
  | nil => intro cp m; rfl
  | cons e rest ih =>
    intro cp m
    obtain ⟨n, node⟩ := e
    cases node with
    | file p =>
      have hfilter : List.filter (fun e => !(e.2.isDirB &&
          (strStartsWith e.1 "." || e.1 == "Icon" || strStartsWith e.1 "Icon\r")))
          ((n, FSNode.file p) :: rest) =
          (n, FSNode.file p) :: List.filter (fun e => !(e.2.isDirB &&
            (strStartsWith e.1 "." || e.1 == "Icon" || strStartsWith e.1 "Icon\r"))) rest := by
        simp [List.filter_cons, FSNode.isDirB]
      rw [hfilter]
      show findSubsWith f rest cp m = _
      rw [ih cp m]
      rfl
    | dir es' =>
      by_cases hcond : (!strStartsWith n "." && n != "Icon" && !strStartsWith n "Icon\r") = true
      · have h1 : strStartsWith n "." = false := by
          by_contra hc
          rw [Bool.not_eq_false] at hc
          rw [hc] at hcond
          simp at hcond
        have h2 : (n == "Icon") = false := by
          by_contra hc
          rw [Bool.not_eq_false] at hc
          rw [show (n != "Icon") = !(n == "Icon") from rfl, hc] at hcond
          simp at hcond
        have h3 : strStartsWith n "Icon\r" = false := by
          by_contra hc
          rw [Bool.not_eq_false] at hc
          rw [hc] at hcond
          simp at hcond
        have hfilter : List.filter (fun e => !(e.2.isDirB &&
            (strStartsWith e.1 "." || e.1 == "Icon" || strStartsWith e.1 "Icon\r")))
            ((n, FSNode.dir es') :: rest) =
            (n, FSNode.dir es') :: List.filter (fun e => !(e.2.isDirB &&
              (strStartsWith e.1 "." || e.1 == "Icon" || strStartsWith e.1 "Icon\r"))) rest := by
          simp [List.filter_cons, FSNode.isDirB, h1, h2, h3]
        rw [hfilter]
        show (if !strStartsWith n "." && n != "Icon" && !strStartsWith n "Icon\r" then _ else _) =
          (if !strStartsWith n "." && n != "Icon" && !strStartsWith n "Icon\r" then _ else _)
        rw [if_pos hcond, if_pos hcond]
        rw [ih]
      · have hor : (strStartsWith n "." || n == "Icon" || strStartsWith n "Icon\r") = true := by
          rcases Bool.eq_false_or_eq_true (strStartsWith n ".") with h1 | h1
          · rw [h1]
            rfl
          · rcases Bool.eq_false_or_eq_true (n == "Icon") with h2 | h2
            · rw [h1, h2]
              rfl
            · rcases Bool.eq_false_or_eq_true (strStartsWith n "Icon\r") with h3 | h3
              · rw [h1, h2, h3]
                decide
              · exfalso
                apply hcond
                rw [h1, h3, show (n != "Icon") = !(n == "Icon") from rfl, h2]
                rfl
        have hfilter : List.filter (fun e => !(e.2.isDirB &&
            (strStartsWith e.1 "." || e.1 == "Icon" || strStartsWith e.1 "Icon\r")))
            ((n, FSNode.dir es') :: rest) =
            List.filter (fun e => !(e.2.isDirB &&
              (strStartsWith e.1 "." || e.1 == "Icon" || strStartsWith e.1 "Icon\r"))) rest := by
          simp [List.filter_cons, FSNode.isDirB, hor]
          intro hsw hic
          have hic2 : (n == "Icon") = false := beq_eq_false_iff_ne.mpr hic
          rcases Bool.eq_false_or_eq_true (strStartsWith n "Icon\r") with h3 | h3
          · exact h3
          · rw [hsw, hic2, h3] at hor
            exact absurd hor (by decide)
        rw [hfilter]
        show (if !strStartsWith n "." && n != "Icon" && !strStartsWith n "Icon\r" then _ else _) = _
        rw [if_neg hcond]
        exact ih cp m

/-- C7: discovery registers a directory exactly when it holds a metadata file
or a recognized image/video/audio file (the spec's qualification condition);
a directory holding only PDF files contributes nothing; and `.`-prefixed or
`Icon` subdirectories are skipped, never traversed. -/
theorem discovery_registration_condition :
    (∀ (es : List (String × FSNode)) (cp : String) (m : List (String × String)),
      (registerDir es cp m).1 =
        if qualifiesAsSeries es then [slugifyPath (nfc cp)] else []) ∧
    (∀ (fuel : Nat) (es : List (String × FSNode)) (cp : String)
      (m : List (String × String)),
      (∀ e ∈ es, e.2.isFileB = true ∧ strEndsWith e.1 ".pdf" = true) →
      findSeriesDirsGo (fuel + 1) es cp m = ([], m)) ∧
    (∀ (f : List (String × FSNode) → String → List (String × String) →
        List String × List (String × String))
      (es : List (String × FSNode)) (cp : String) (m : List (String × String)),
      findSubsWith f es cp m =
        findSubsWith f
          (es.filter (fun e => !(e.2.isDirB &&
            (strStartsWith e.1 "." || e.1 == "Icon" || strStartsWith e.1 "Icon\r"))))
          cp m) := by
  refine ⟨?_, ?_, findSubsWith_skip⟩
  · intro es cp m
    unfold registerDir
    rw [registers_eq_qualifies]
    split <;> rfl
  · intro fuel es cp m he
    rw [findSeriesDirsGo]
    have hreg : registerDir es cp m = ([], m) := by
      unfold registerDir
      rw [pdf_only_not_registered he]
      rfl
    rw [hreg]
    rw [findSubsWith_all_files _ es cp m (fun e hee => (he e hee).1)]
    rfl

/-- Fixture entries for the C7 witness: a PDF-only directory. -/
def w7Pdf : List (String × FSNode) := [("doc.pdf", .file none), ("two.pdf", .file none)]

/-- Fixture entries for the C7 witness: a qualifying directory holding a
hidden subdirectory. -/
def w7Mixed : List (String × FSNode) :=
  [("a.webp", .file none), (".git", .dir [("x.webp", .file none)])]

/-- Witness for C7 at concrete directories: the qualifying directory
registers under the spec condition, the PDF-only directory contributes
nothing, and the hidden subdirectory is dropped by the traversal filter. -/
theorem discovery_registration_condition_witness :
    (registerDir w7Mixed "M" []).1 =
        (if qualifiesAsSeries w7Mixed then [slugifyPath (nfc "M")] else []) ∧
      findSeriesDirsGo (3 + 1) w7Pdf "p" [] = ([], []) ∧
      findSubsWith (findSeriesDirsGo 3) w7Mixed "M" [] =
        findSubsWith (findSeriesDirsGo 3)
          (w7Mixed.filter (fun e => !(e.2.isDirB &&
            (strStartsWith e.1 "." || e.1 == "Icon" || strStartsWith e.1 "Icon\r"))))
          "M" [] :=
  ⟨discovery_registration_condition.1 w7Mixed "M" [],
    discovery_registration_condition.2.1 3 w7Pdf "p" [] (by decide),
    discovery_registration_condition.2.2 (findSeriesDirsGo 3) w7Mixed "M" []⟩

/-! ## Discovery/load agreement (C9): path and normalization lemmas -/

/-- JavaScript `Array.prototype.join("/")`, as used on path segment lists. -/
def joinSlash : List String → String
  | [] => ""
  | x :: rest =>
    match rest with
    | [] => x
    | _ :: _ => x ++ "/" ++ joinSlash rest

theorem string_ext {s t : String} (h : s.data = t.data) : s = t := by
  cases s
  cases t
  exact congrArg String.mk h

theorem combineChar_slash_right (b : Char) : combineChar b '/' = none := rfl

theorem combineChar_slash_left (m : Char) : combineChar '/' m = none := by
  unfold combineChar
  split_ifs <;> rfl

theorem nfcGo_cons_none {p m : Char} {rest : List Char}
    (h : combineChar p m = none) : nfcGo p (m :: rest) = p :: nfcGo m rest := by
  rw [nfcGo, h]

theorem nfcGo_cons_some {p m c : Char} {rest : List Char}
    (h : combineChar p m = some c) : nfcGo p (m :: rest) = nfcGo c rest := by
  rw [nfcGo, h]

theorem nfcGo_slash (l : List Char) : nfcGo '/' l = '/' :: nfcChars l := by
  cases l with
  | nil => rfl
  | cons m rest => rw [nfcGo_cons_none (combineChar_slash_left m), nfcChars]

theorem nfcGo_append_slash (l1 : List Char) :
    ∀ (p : Char) (l2 : List Char),
      nfcGo p (l1 ++ '/' :: l2) = nfcGo p l1 ++ '/' :: nfcChars l2 := by
  induction l1 with
  | nil =>
    intro p l2
    rw [List.nil_append, nfcGo_cons_none (combineChar_slash_right p), nfcGo_slash]
    rfl
  | cons m rest ih =>
    intro p l2
    rw [List.cons_append]
    cases hc : combineChar p m with
    | some c =>
      rw [nfcGo_cons_some hc, nfcGo_cons_some hc, ih]
    | none =>
      rw [nfcGo_cons_none hc, nfcGo_cons_none hc, ih]
      rfl

theorem nfcChars_append_slash (l1 l2 : List Char) :
    nfcChars (l1 ++ '/' :: l2) = nfcChars l1 ++ '/' :: nfcChars l2 := by
  cases l1 with
  | nil =>
    rw [List.nil_append]
    show nfcGo '/' l2 = [] ++ '/' :: nfcChars l2
    rw [nfcGo_slash]
    rfl
  | cons c rest =>
    rw [List.cons_append]
    show nfcGo c (rest ++ '/' :: l2) = nfcGo c rest ++ '/' :: nfcChars l2
    rw [nfcGo_append_slash]

theorem nfc_append_slash (a b : String) :
    nfc (a ++ "/" ++ b) = nfc a ++ "/" ++ nfc b := by
  apply string_ext
  simp only [nfc, String.data_append]
  show nfcChars (a.data ++ ['/'] ++ b.data) = nfcChars a.data ++ ['/'] ++ nfcChars b.data
  rw [List.append_assoc, List.append_assoc]
  show nfcChars (a.data ++ '/' :: b.data) = nfcChars a.data ++ '/' :: nfcChars b.data
  exact nfcChars_append_slash a.data b.data

theorem nfc_joinSlash : ∀ rs : List String,
    nfc (joinSlash rs) = joinSlash (rs.map nfc) := by
  intro rs
  induction rs with
  | nil => rfl
  | cons x rest ih =>
    cases rest with
    | nil => rfl
    | cons y rest' =>
      show nfc (x ++ "/" ++ joinSlash (y :: rest')) = _
      rw [nfc_append_slash, ih]
      rfl

theorem nfcGo_ne_nil (p : Char) : ∀ l, nfcGo p l ≠ [] := by
  intro l
  induction l generalizing p with
  | nil => simp [nfcGo]
  | cons m rest ih =>
    cases hc : combineChar p m with
    | some c => rw [nfcGo_cons_some hc]; exact ih c
    | none => rw [nfcGo_cons_none hc]; simp

theorem nfc_ne_empty {s : String} (h : s ≠ "") : nfc s ≠ "" := by
  intro hc
  apply h
  apply string_ext
  have hdata : nfcChars s.data = [] := congrArg String.data hc
  cases hs : s.data with
  | nil => rfl
  | cons c rest =>
    rw [hs] at hdata
    exact absurd hdata (nfcGo_ne_nil c rest)

theorem joinSlash_ne_empty : ∀ (rs : List String), rs ≠ [] →
    (∀ x ∈ rs, x ≠ "") → joinSlash rs ≠ "" := by
  intro rs hne hx
  cases rs with
  | nil => exact absurd rfl hne
  | cons x rest =>
    cases rest with
    | nil => exact hx x (List.mem_cons_self _ _)
    | cons y rest' =>
      show x ++ "/" ++ joinSlash (y :: rest') ≠ ""
      intro hc
      have hdata : (x ++ "/" ++ joinSlash (y :: rest')).data = [] :=
        congrArg String.data hc
      rw [String.data_append, String.data_append] at hdata
      have h1 := List.append_eq_nil.mp hdata
      have h2 := List.append_eq_nil.mp h1.1
      have : ('/' : Char) ∈ ("/" : String).data := by decide
      rw [h2.2] at this
      exact absurd this (List.not_mem_nil _)

theorem joinSlash_snoc : ∀ (rs : List String) (n : String), rs ≠ [] →
    joinSlash (rs ++ [n]) = joinSlash rs ++ "/" ++ n := by
  intro rs
  induction rs with
  | nil => intro n h; exact absurd rfl h
  | cons x rest ih =>
    intro n _
    cases rest with
    | nil => rfl
    | cons y rest' =>
      rw [List.cons_append]
      show x ++ "/" ++ joinSlash ((y :: rest') ++ [n]) = _
      rw [ih n (by simp)]
      show _ = x ++ "/" ++ joinSlash (y :: rest') ++ "/" ++ n
      simp [String.append_assoc]

theorem splitOnPred_ne_nil (p : Char → Bool) : ∀ l, splitOnPred p l ≠ [] := by
  intro l
  induction l with
  | nil => simp [splitOnPred]
  | cons c rest ih =>
    rw [splitOnPred]
    cases hsp : splitOnPred p rest with
    | nil => exact absurd hsp ih
    | cons h t =>
      show (if p c = true then [] :: h :: t else (c :: h) :: t) ≠ []
      by_cases hp : p c
      · rw [if_pos hp]; simp
      · rw [if_neg hp]; simp

theorem splitOnPred_no_sep {p : Char → Bool} :
    ∀ {l : List Char}, (∀ c ∈ l, p c = false) → splitOnPred p l = [l] := by
  intro l
  induction l with
  | nil => intro _; rfl
  | cons c rest ih =>
    intro h
    rw [splitOnPred]
    rw [ih (fun d hd => h d (List.mem_cons_of_mem _ hd))]
    rw [h c (List.mem_cons_self _ _)]
    simp

theorem splitOnPred_append_sep {p : Char → Bool} {c0 : Char} (hc0 : p c0 = true) :
    ∀ (l1 l2 : List Char), (∀ c ∈ l1, p c = false) →
      splitOnPred p (l1 ++ c0 :: l2) = l1 :: splitOnPred p l2 := by
  intro l1
  induction l1 with
  | nil =>
    intro l2 _
    rw [List.nil_append, splitOnPred]
    cases hs : splitOnPred p l2 with
    | nil => exact absurd hs (splitOnPred_ne_nil p l2)
    | cons h t => rw [hc0]; simp
  | cons c rest ih =>
    intro l2 h
    rw [List.cons_append, splitOnPred, ih l2 (fun d hd => h d (List.mem_cons_of_mem _ hd))]
    rw [h c (List.mem_cons_self _ _)]
    simp

theorem splitSlash_joinSlash : ∀ (rs : List String), rs ≠ [] →
    (∀ x ∈ rs, '/' ∉ x.data) → splitSlash (joinSlash rs) = rs := by
  intro rs
  induction rs with
  | nil => intro h _; exact absurd rfl h
  | cons x rest ih =>
    intro _ hx
    cases rest with
    | nil =>
      show splitSlash x = [x]
      unfold splitSlash
      rw [splitOnPred_no_sep (fun c hc => by
        simp only [decide_eq_false_iff_not]
        intro he
        exact hx x (List.mem_cons_self _ _) (he ▸ hc))]
      rw [List.map_singleton]
    | cons y rest' =>
      show splitSlash (x ++ "/" ++ joinSlash (y :: rest')) = _
      unfold splitSlash
      rw [String.data_append, String.data_append, List.append_assoc]
      show (splitOnPred (fun c => c = '/')
        (x.data ++ '/' :: (joinSlash (y :: rest')).data)).map (fun l => (⟨l⟩ : String)) = _
      rw [splitOnPred_append_sep (by simp) x.data (joinSlash (y :: rest')).data
        (fun c hc => by
          simp only [decide_eq_false_iff_not]
          intro he
          exact hx x (List.mem_cons_self _ _) (he ▸ hc))]
      rw [List.map_cons]
      have hxeta : (⟨x.data⟩ : String) = x := by cases x; rfl
      rw [hxeta]
      have hrest := ih (by simp) (fun z hz => hx z (List.mem_cons_of_mem _ hz))
      unfold splitSlash at hrest
      rw [hrest]

/-! ## Discovery/load agreement (C9): the raw-name walk and well-formed trees -/

/-- The raw-name directory walk that discovery performs implicitly: at each
level take the unique entry carrying the raw segment name and step into it
when it is a directory. -/
def descend : List (String × FSNode) → List String → Option (List (String × FSNode))
  | es, [] => some es
  | es, seg :: rest =>
    match es.find? (fun x => x.1 = seg) with
    | some (_, FSNode.dir sub) => descend sub rest
    | _ => none

/-- Well-formedness of a directory tree, the hypothesis under which discovery
and load agree: every entry name is nonempty, its NFC form contains no `/`
(a real filesystem forbids `/` inside one name), NFC-normalized names are
pairwise distinct within each directory (so NFC-based resolution is
unambiguous), and every subdirectory is well-formed in turn. -/
inductive WFEntries : List (String × FSNode) → Prop where
  | mk : ∀ es : List (String × FSNode),
      (∀ e ∈ es, e.1 ≠ "" ∧ '/' ∉ (nfc e.1).data) →
      ((es.map (fun e => nfc e.1)).Nodup) →
      (∀ n sub, (n, FSNode.dir sub) ∈ es → WFEntries sub) →
      WFEntries es

theorem WFEntries.names_of {es : List (String × FSNode)} (h : WFEntries es) :
    ∀ e ∈ es, e.1 ≠ "" ∧ '/' ∉ (nfc e.1).data := by
  cases h
  assumption

theorem WFEntries.nodup_of {es : List (String × FSNode)} (h : WFEntries es) :
    (es.map (fun e => nfc e.1)).Nodup := by
  cases h
  assumption

theorem WFEntries.sub_of {es : List (String × FSNode)} (h : WFEntries es) :
    ∀ n sub, (n, FSNode.dir sub) ∈ es → WFEntries sub := by
  cases h
  assumption

/-- Executable membership test, used by the executable well-formedness check. -/
def memD {α : Type} [DecidableEq α] (x : α) : List α → Bool
  | [] => false
  | y :: rest => decide (x = y) || memD x rest

theorem memD_iff {α : Type} [DecidableEq α] {x : α} :
    ∀ {l : List α}, memD x l = true ↔ x ∈ l := by
  intro l
  induction l with
  | nil => simp [memD]
  | cons y rest ih => simp [memD, ih]

/-- Executable duplicate-freedom test. -/
def nodupD {α : Type} [DecidableEq α] : List α → Bool
  | [] => true
  | x :: rest => !memD x rest && nodupD rest

theorem nodupD_sound {α : Type} [DecidableEq α] :
    ∀ {l : List α}, nodupD l = true → l.Nodup := by
  intro l
  induction l with
  | nil => intro _; exact List.nodup_nil
  | cons x rest ih =>
    intro h
    rw [nodupD, Bool.and_eq_true] at h
    rw [List.nodup_cons]
    refine ⟨?_, ih h.2⟩
    intro hmem
    have := memD_iff.mpr hmem
    rw [this] at h
    exact absurd h.1 (by decide)

/-- Executable well-formedness check (`fuel` bounds the tree depth; any fuel
larger than the depth verifies the whole tree). -/
def wfGo : Nat → List (String × FSNode) → Bool
  | 0, _ => false
  | fuel + 1, es =>
    (es.all (fun e =>
      (e.1 != "") && !memD '/' (nfc e.1).data &&
      (match e.2 with
       | FSNode.file _ => true
       | FSNode.dir sub => wfGo fuel sub))) &&
    nodupD (es.map (fun e => nfc e.1))

theorem wfGo_sound : ∀ (fuel : Nat) (es : List (String × FSNode)),
    wfGo fuel es = true → WFEntries es := by
  intro fuel
  induction fuel with
  | zero => intro es h; exact absurd h (by simp [wfGo])
  | succ fuel ih =>
    intro es h
    rw [wfGo, Bool.and_eq_true] at h
    refine WFEntries.mk es ?_ (nodupD_sound h.2) ?_
    · intro e he
      have he2 := List.all_eq_true.mp h.1 e he
      rw [Bool.and_eq_true, Bool.and_eq_true] at he2
      refine ⟨by simpa using he2.1.1, ?_⟩
      intro hc
      have hm := memD_iff.mpr hc
      rw [hm] at he2
      exact absurd he2.1.2 (by decide)
    · intro n sub hmem
      have hs := List.all_eq_true.mp h.1 (n, FSNode.dir sub) hmem
      rw [Bool.and_eq_true] at hs
      exact ih sub hs.2

theorem find?_raw_of_mem {e : String × FSNode} :
    ∀ {es : List (String × FSNode)},
      (es.map (fun x => nfc x.1)).Nodup → e ∈ es →
      es.find? (fun x => x.1 = e.1) = some e := by
  intro es
  induction es with
  | nil => intro _ h; cases h
  | cons a rest ih =>
    intro hnd he
    rw [List.map_cons, List.nodup_cons] at hnd
    rcases List.mem_cons.mp he with rfl | hmem
    · rw [List.find?_cons_of_pos _ (by simp)]
    · rw [List.find?_cons_of_neg, ih hnd.2 hmem]
      simp only [decide_eq_true_eq]
      intro hk
      apply hnd.1
      rw [hk]
      exact List.mem_map.mpr ⟨e, hmem, rfl⟩

theorem find?_nfc_of_mem {e : String × FSNode} :
    ∀ {es : List (String × FSNode)},
      (es.map (fun x => nfc x.1)).Nodup → e ∈ es →
      es.find? (fun x => nfc x.1 = nfc e.1) = some e := by
  intro es
  induction es with
  | nil => intro _ h; cases h
  | cons a rest ih =>
    intro hnd he
    rw [List.map_cons, List.nodup_cons] at hnd
    rcases List.mem_cons.mp he with rfl | hmem
    · rw [List.find?_cons_of_pos _ (by simp)]
    · rw [List.find?_cons_of_neg, ih hnd.2 hmem]
      simp only [decide_eq_true_eq]
      intro hk
      apply hnd.1
      rw [hk]
      exact List.mem_map.mpr ⟨e, hmem, rfl⟩

theorem descend_wf : ∀ (rs : List String) (root es : List (String × FSNode)),
    WFEntries root → descend root rs = some es → WFEntries es := by
  intro rs
  induction rs with
  | nil =>
    intro root es hwf hd
    have : root = es := by simpa [descend] using hd
    exact this ▸ hwf
  | cons s rest ih =>
    intro root es hwf hd
    rw [descend] at hd
    cases hfr : root.find? (fun x => x.1 = s) with
    | none => rw [hfr] at hd; exact absurd hd (by simp)
    | some p =>
      obtain ⟨pn, pnode⟩ := p
      rw [hfr] at hd
      cases pnode with
      | file q => exact absurd hd (by simp)
      | dir sub =>
        have hd2 : descend sub rest = some es := hd
        exact ih sub es (hwf.sub_of pn sub (List.mem_of_find?_eq_some hfr)) hd2

theorem descend_snoc : ∀ (rs : List String) (root es es2 : List (String × FSNode)) (n : String),
    descend root rs = some es →
    es.find? (fun x => x.1 = n) = some (n, FSNode.dir es2) →
    descend root (rs ++ [n]) = some es2 := by
  intro rs
  induction rs with
  | nil =>
    intro root es es2 n hd hf
    have hre : root = es := by simpa [descend] using hd
    subst hre
    rw [List.nil_append, descend, hf]
    rfl
  | cons s rest ih =>
    intro root es es2 n hd hf
    rw [descend] at hd
    rw [List.cons_append, descend]
    cases hfr : root.find? (fun x => x.1 = s) with
    | none => rw [hfr] at hd; exact absurd hd (by simp)
    | some p =>
      obtain ⟨pn, pnode⟩ := p
      rw [hfr] at hd
      cases pnode with
      | file q => exact absurd hd (by simp)
      | dir sub =>
        have hd2 : descend sub rest = some es := hd
        exact ih sub es es2 n hd2 hf

theorem descend_resolveGo : ∀ (rs : List String) (root es : List (String × FSNode)),
    WFEntries root → descend root rs = some es →
    resolveGo (rs.map nfc) (FSNode.dir root) = Except.ok (some es) := by
  intro rs
  induction rs with
  | nil =>
    intro root es _ hd
    have : root = es := by simpa [descend] using hd
    subst this
    rfl
  | cons s rest ih =>
    intro root es hwf hd
    rw [descend] at hd
    cases hfr : root.find? (fun x => x.1 = s) with
    | none => rw [hfr] at hd; exact absurd hd (by simp)
    | some p =>
      obtain ⟨pn, pnode⟩ := p
      rw [hfr] at hd
      cases pnode with
      | file q => exact absurd hd (by simp)
      | dir sub =>
        have hd2 : descend sub rest = some es := hd
        have hpn : pn = s := by
          have := List.find?_some hfr
          simpa using this
        subst hpn
        have hmem : (pn, FSNode.dir sub) ∈ root := List.mem_of_find?_eq_some hfr
        rw [List.map_cons, resolveGo]
        rw [show root.find? (fun x => nfc x.1 = nfc pn) = some (pn, FSNode.dir sub) from
          find?_nfc_of_mem hwf.nodup_of hmem]
        exact ih sub es (hwf.sub_of pn sub hmem) hd2

theorem register_resolves (root : List (String × FSNode)) (hwf : WFEntries root)
    (rs : List String) (es : List (String × FSNode)) (hne : rs ≠ [])
    (hsegs : ∀ x ∈ rs, x ≠ "" ∧ '/' ∉ (nfc x).data)
    (hdes : descend root rs = some es) :
    resolveSeriesPath root (nfc (joinSlash rs)) = Except.ok (some es) := by
  have hmapne : rs.map nfc ≠ [] := by
    cases rs with
    | nil => exact absurd rfl hne
    | cons a as => simp
  have hj : nfc (joinSlash rs) = joinSlash (rs.map nfc) := nfc_joinSlash rs
  have hjne : joinSlash (rs.map nfc) ≠ "" := by
    apply joinSlash_ne_empty _ hmapne
    intro y hy
    obtain ⟨x, hx, hxy⟩ := List.mem_map.mp hy
    rw [← hxy]
    exact nfc_ne_empty (hsegs x hx).1
  rw [resolveSeriesPath, hj, if_neg hjne]
  rw [splitSlash_joinSlash (rs.map nfc) hmapne (fun y hy => by
    obtain ⟨x, hx, hxy⟩ := List.mem_map.mp hy
    rw [← hxy]
    exact (hsegs x hx).2)]
  exact descend_resolveGo rs root es hwf hdes

theorem isEmpty_false_of_mem {α : Type} {x : α} {l : List α} (h : x ∈ l) :
    l.isEmpty = false := by
  cases l with
  | nil => cases h
  | cons a t => rfl

theorem mem_videoFilesOf {entries : List (String × FSNode)} {f : String}
    {nd : FSNode} (hmem : (f, nd) ∈ entries)
    (hv : videoExtensions.any (fun ext => strEndsWith (jsLowerStr f) ext) = true) :
    f ∈ videoFilesOf entries := by
  unfold videoFilesOf
  rw [mem_sortStr, List.mem_filter]
  exact ⟨List.mem_map.mpr ⟨(f, nd), hmem, rfl⟩, hv⟩

theorem mem_audioFilesOf {entries : List (String × FSNode)} {f : String}
    {nd : FSNode} (hmem : (f, nd) ∈ entries)
    (hv : audioExtensions.any (fun ext => strEndsWith (jsLowerStr f) ext) = true) :
    f ∈ audioFilesOf entries := by
  unfold audioFilesOf
  rw [mem_sortStr, List.mem_filter]
  exact ⟨List.mem_map.mpr ⟨(f, nd), hmem, rfl⟩, hv⟩

theorem hasAnyMediaOf_webp {es : List (String × FSNode)} {f : String}
    (h : f ∈ webpFilesOf es) : hasAnyMediaOf es = true := by
  unfold hasAnyMediaOf
  rw [isEmpty_false_of_mem h]
  rfl

theorem hasAnyMediaOf_video {es : List (String × FSNode)} {f : String}
    (h : f ∈ videoFilesOf es) : hasAnyMediaOf es = true := by
  unfold hasAnyMediaOf
  rw [isEmpty_false_of_mem h]
  cases (webpFilesOf es).isEmpty <;> rfl

theorem hasAnyMediaOf_audio {es : List (String × FSNode)} {f : String}
    (h : f ∈ audioFilesOf es) : hasAnyMediaOf es = true := by
  unfold hasAnyMediaOf
  rw [isEmpty_false_of_mem h]
  cases (webpFilesOf es).isEmpty <;> cases (videoFilesOf es).isEmpty <;> rfl

/-- A directory that discovery registers always survives the load-time
not-a-series guard: the load returns the assembled series. -/
theorem registers_load {es : List (String × FSNode)}
    (h : registersAsSeries es = true) (slug v : String) :
    loadFromDir slug v es = some (assembleSeries slug v es) := by
  have hcond : ((jsonEntryOf es).isNone && !hasAnyMediaOf es) = false := by
    unfold registersAsSeries at h
    rw [Bool.or_eq_true] at h
    rcases h with h3 | haud
    rotate_left
    · obtain ⟨e, he, hp⟩ := List.any_eq_true.mp haud
      obtain ⟨f, nd⟩ := e
      rw [Bool.and_eq_true] at hp
      rw [hasAnyMediaOf_audio (mem_audioFilesOf he hp.2)]
      cases (jsonEntryOf es).isNone <;> rfl
    rw [Bool.or_eq_true] at h3
    rcases h3 with h2 | hvid
    rotate_left
    · obtain ⟨e, he, hp⟩ := List.any_eq_true.mp hvid
      obtain ⟨f, nd⟩ := e
      rw [Bool.and_eq_true] at hp
      rw [hasAnyMediaOf_video (mem_videoFilesOf he hp.2)]
      cases (jsonEntryOf es).isNone <;> rfl
    rw [Bool.or_eq_true] at h2
    rcases h2 with hjs | hwebp
    rotate_left
    · obtain ⟨e, he, hp⟩ := List.any_eq_true.mp hwebp
      obtain ⟨f, nd⟩ := e
      rw [Bool.and_eq_true] at hp
      rw [hasAnyMediaOf_webp (mem_webpFilesOf he hp.2)]
      cases (jsonEntryOf es).isNone <;> rfl
    · obtain ⟨e, he, hp⟩ := List.any_eq_true.mp hjs
      rw [Bool.and_eq_true] at hp
      have hname : e.1 = "series.json" := by
        have := hp.2
        simpa using this
      have hsome : (jsonEntryOf es).isSome = true := by
        unfold jsonEntryOf
        rw [List.find?_isSome]
        exact ⟨e, he, by simp [hname]⟩
      rw [isNone_eq_not_isSome, hsome]
      rfl
  unfold loadFromDir
  rw [if_neg (by rw [hcond]; exact Bool.false_ne_true)]

theorem registerDir_pos {es : List (String × FSNode)} {cp : String}
    {m : List (String × String)} (h : registersAsSeries es = true) :
    registerDir es cp m =
      ([slugifyPath (nfc cp)], mapSet m (slugifyPath (nfc cp)) (nfc cp)) := by
  unfold registerDir
  rw [if_pos h]

theorem registerDir_neg {es : List (String × FSNode)} {cp : String}
    {m : List (String × String)} (h : registersAsSeries es = false) :
    registerDir es cp m = ([], m) := by
  unfold registerDir
  rw [if_neg (by rw [h]; exact Bool.false_ne_true)]

theorem findSeriesDirsGo_succ (fuel : Nat) (es : List (String × FSNode))
    (cp : String) (m : List (String × String)) :
    findSeriesDirsGo (fuel + 1) es cp m =
      ((registerDir es cp m).1 ++
        (findSubsWith (findSeriesDirsGo fuel) es cp (registerDir es cp m).2).1,
       (findSubsWith (findSeriesDirsGo fuel) es cp (registerDir es cp m).2).2) := rfl

theorem findSubsWith_cons_file
    (f : List (String × FSNode) → String → List (String × String) →
      List String × List (String × String))
    (n : String) (p : Option SeriesJson) (rest : List (String × FSNode))
    (cp : String) (m : List (String × String)) :
    findSubsWith f ((n, FSNode.file p) :: rest) cp m = findSubsWith f rest cp m := by
  rw [findSubsWith]

theorem findSubsWith_cons_dir
    (f : List (String × FSNode) → String → List (String × String) →
      List String × List (String × String))
    (n : String) (sub rest : List (String × FSNode))
    (cp : String) (m : List (String × String))
    (ht : (!strStartsWith n "." && n != "Icon" && !strStartsWith n "Icon\r") = true) :
    findSubsWith f ((n, FSNode.dir sub) :: rest) cp m =
      ((f sub (if cp = "" then n else cp ++ "/" ++ n) m).1 ++
        (findSubsWith f rest cp (f sub (if cp = "" then n else cp ++ "/" ++ n) m).2).1,
       (findSubsWith f rest cp (f sub (if cp = "" then n else cp ++ "/" ++ n) m).2).2) := by
  show (if (!strStartsWith n "." && n != "Icon" && !strStartsWith n "Icon\r") = true
    then _ else _) = _
  rw [if_pos ht]

theorem findSubsWith_cons_dir_skip
    (f : List (String × FSNode) → String → List (String × String) →
      List String × List (String × String))
    (n : String) (sub rest : List (String × FSNode))
    (cp : String) (m : List (String × String))
    (ht : ¬((!strStartsWith n "." && n != "Icon" && !strStartsWith n "Icon\r") = true)) :
    findSubsWith f ((n, FSNode.dir sub) :: rest) cp m = findSubsWith f rest cp m := by
  show (if (!strStartsWith n "." && n != "Icon" && !strStartsWith n "Icon\r") = true
    then _ else _) = _
  rw [if_neg ht]

/-- Every value of the discovery side table is a loadable NFC path: nonempty,
resolving to a real directory that passes the registration test. -/
def MapOK (root : List (String × FSNode)) (m : List (String × String)) : Prop :=
  ∀ x w, mapGet m x = some w → w ≠ "" ∧
    ∃ ds, resolveSeriesPath root w = Except.ok (some ds) ∧ registersAsSeries ds = true

theorem findSubs_inv (root : List (String × FSNode)) (hwf : WFEntries root)
    (fuel : Nat)
    (IH : ∀ (es : List (String × FSNode)) (rs : List String)
        (m : List (String × String)),
      descend root rs = some es →
      (∀ x ∈ rs, x ≠ "" ∧ '/' ∉ (nfc x).data) →
      (rs = [] → registersAsSeries es = false) →
      MapOK root m →
      MapOK root (findSeriesDirsGo fuel es (joinSlash rs) m).2 ∧
      (∀ x, (mapGet m x).isSome = true →
        (mapGet (findSeriesDirsGo fuel es (joinSlash rs) m).2 x).isSome = true) ∧
      (∀ s ∈ (findSeriesDirsGo fuel es (joinSlash rs) m).1,
        (mapGet (findSeriesDirsGo fuel es (joinSlash rs) m).2 s).isSome = true)) :
    ∀ (es : List (String × FSNode)) (rs : List String),
      descend root rs = some es →
      (∀ x ∈ rs, x ≠ "" ∧ '/' ∉ (nfc x).data) →
      ∀ (l : List (String × FSNode)), (∀ e ∈ l, e ∈ es) →
      ∀ (m : List (String × String)), MapOK root m →
      MapOK root (findSubsWith (findSeriesDirsGo fuel) l (joinSlash rs) m).2 ∧
      (∀ x, (mapGet m x).isSome = true →
        (mapGet (findSubsWith (findSeriesDirsGo fuel) l (joinSlash rs) m).2 x).isSome = true) ∧
      (∀ s ∈ (findSubsWith (findSeriesDirsGo fuel) l (joinSlash rs) m).1,
        (mapGet (findSubsWith (findSeriesDirsGo fuel) l (joinSlash rs) m).2 s).isSome = true) := by
  intro es rs hdes hsegs l
  induction l with
  | nil =>
    intro _ m hm
    exact ⟨hm, fun x h => h, fun s hs => absurd hs (by simp [findSubsWith])⟩
  | cons e rest ihl =>
    intro hl m hm
    obtain ⟨n, node⟩ := e
    cases node with
    | file p =>
      rw [findSubsWith_cons_file]
      exact ihl (fun x hx => hl x (List.mem_cons_of_mem _ hx)) m hm
    | dir sub =>
      by_cases ht : (!strStartsWith n "." && n != "Icon" && !strStartsWith n "Icon\r") = true
      · rw [findSubsWith_cons_dir _ _ _ _ _ _ ht]
        have hmem : (n, FSNode.dir sub) ∈ es := hl _ (List.mem_cons_self _ _)
        have hwfes : WFEntries es := descend_wf rs root es hwf hdes
        have hn := hwfes.names_of _ hmem
        have hsp : (if joinSlash rs = "" then n else joinSlash rs ++ "/" ++ n) =
            joinSlash (rs ++ [n]) := by
          cases rs with
          | nil => rfl
          | cons a as =>
            rw [if_neg (joinSlash_ne_empty (a :: as) (by simp)
              (fun x hx => (hsegs x hx).1))]
            rw [joinSlash_snoc (a :: as) n (by simp)]
        rw [hsp]
        have hdes2 : descend root (rs ++ [n]) = some sub :=
          descend_snoc rs root es sub n hdes (find?_raw_of_mem hwfes.nodup_of hmem)
        have hsegs2 : ∀ x ∈ rs ++ [n], x ≠ "" ∧ '/' ∉ (nfc x).data := by
          intro x hx
          rcases List.mem_append.mp hx with hx1 | hx1
          · exact hsegs x hx1
          · rw [List.mem_singleton] at hx1
            subst hx1
            exact hn
        have hsub1 := IH sub (rs ++ [n]) m hdes2 hsegs2 (by simp) hm
        have hrest := ihl (fun x hx => hl x (List.mem_cons_of_mem _ hx)) _ hsub1.1
        refine ⟨hrest.1, ?_, ?_⟩
        · intro x hx
          exact hrest.2.1 x (hsub1.2.1 x hx)
        · intro s hs
          rcases List.mem_append.mp hs with hs1 | hs1
          · exact hrest.2.1 s (hsub1.2.2 s hs1)
          · exact hrest.2.2 s hs1
      · rw [findSubsWith_cons_dir_skip _ _ _ _ _ _ ht]
        exact ihl (fun x hx => hl x (List.mem_cons_of_mem _ hx)) m hm

theorem findGo_inv (root : List (String × FSNode)) (hwf : WFEntries root) :
    ∀ (fuel : Nat) (es : List (String × FSNode)) (rs : List String)
      (m : List (String × String)),
      descend root rs = some es →
      (∀ x ∈ rs, x ≠ "" ∧ '/' ∉ (nfc x).data) →
      (rs = [] → registersAsSeries es = false) →
      MapOK root m →
      MapOK root (findSeriesDirsGo fuel es (joinSlash rs) m).2 ∧
      (∀ x, (mapGet m x).isSome = true →
        (mapGet (findSeriesDirsGo fuel es (joinSlash rs) m).2 x).isSome = true) ∧
      (∀ s ∈ (findSeriesDirsGo fuel es (joinSlash rs) m).1,
        (mapGet (findSeriesDirsGo fuel es (joinSlash rs) m).2 s).isSome = true) := by
  intro fuel
  induction fuel with
  | zero =>
    intro es rs m _ _ _ hm
    exact ⟨hm, fun x h => h, fun s hs => absurd hs (by simp [findSeriesDirsGo])⟩
  | succ fuel ih =>
    intro es rs m hdes hsegs hrs0 hm
    rw [findSeriesDirsGo_succ]
    have hstep : MapOK root (registerDir es (joinSlash rs) m).2 ∧
        (∀ x, (mapGet m x).isSome = true →
          (mapGet (registerDir es (joinSlash rs) m).2 x).isSome = true) ∧
        (∀ s ∈ (registerDir es (joinSlash rs) m).1,
          (mapGet (registerDir es (joinSlash rs) m).2 s).isSome = true) := by
      by_cases hreg : registersAsSeries es = true
      · rw [registerDir_pos hreg]
        have hne : rs ≠ [] := by
          intro h0
          rw [hrs0 h0] at hreg
          exact absurd hreg (by decide)
        have hval : nfc (joinSlash rs) ≠ "" :=
          nfc_ne_empty (joinSlash_ne_empty rs hne (fun x hx => (hsegs x hx).1))
        have hres : resolveSeriesPath root (nfc (joinSlash rs)) = Except.ok (some es) :=
          register_resolves root hwf rs es hne hsegs hdes
        refine ⟨?_, ?_, ?_⟩
        · intro x w hx
          rw [mapGet_mapSet] at hx
          by_cases hxk : x = slugifyPath (nfc (joinSlash rs))
          · rw [if_pos hxk] at hx
            have hw : w = nfc (joinSlash rs) := (Option.some_inj.mp hx).symm
            subst hw
            exact ⟨hval, es, hres, hreg⟩
          · rw [if_neg hxk] at hx
            exact hm x w hx
        · intro x hx
          rw [mapGet_mapSet]
          by_cases hxk : x = slugifyPath (nfc (joinSlash rs))
          · rw [if_pos hxk]
            rfl
          · rw [if_neg hxk]
            exact hx
        · intro s hs
          rw [List.mem_singleton] at hs
          subst hs
          rw [mapGet_mapSet, if_pos rfl]
          rfl
      · rw [registerDir_neg (by
          rcases Bool.eq_false_or_eq_true (registersAsSeries es) with h1 | h1
          · exact absurd h1 hreg
          · exact h1)]
        exact ⟨hm, fun x h => h, fun s hs => absurd hs (by simp)⟩
    have hsubs := findSubs_inv root hwf fuel ih es rs hdes hsegs es
      (fun e he => he) _ hstep.1
    refine ⟨hsubs.1, ?_, ?_⟩
    · intro x hx
      exact hsubs.2.1 x (hstep.2.1 x hx)
    · intro s hs
      rcases List.mem_append.mp hs with hs1 | hs1
      · exact hsubs.2.1 s (hstep.2.2 s hs1)
      · exact hsubs.2.2 s hs1

theorem getSeriesBySlug_eq {root : List (String × FSNode)} {slug v : String}
    {ds : List (String × FSNode)}
    (hv : mapGet (findSeriesDirs root).2 slug = some v)
    (hvne : v ≠ "")
    (hres : resolveSeriesPath root v = Except.ok (some ds)) :
    getSeriesBySlug root slug = Except.ok (loadFromDir slug v ds) := by
  unfold getSeriesBySlug
  split
  · rename_i hnone
    rw [hv] at hnone
    exact absurd hnone (by simp)
  · rename_i nfcPath hsome
    rw [hv] at hsome
    injection hsome with hEq
    subst hEq
    rw [if_neg hvne]
    split
    · rename_i e herr
      rw [herr] at hres
      exact absurd hres (by simp)
    · rename_i hok
      rw [hok] at hres
      exact absurd hres (by simp)
    · rename_i entries hok
      rw [hok] at hres
      have hed : entries = ds := by
        injection hres with h1
        injection h1
      subst hed
      rfl

theorem getAllSeriesGo_loads (root : List (String × FSNode)) :
    ∀ sl : List String,
      (∀ s ∈ sl, ∃ sr : Series, getSeriesBySlug root s = Except.ok (some sr) ∧
        sr.slug = s) →
      ∃ l : List Series, getAllSeriesGo root sl = Except.ok l ∧
        l.map (fun sr => sr.slug) = sl := by
  intro sl
  induction sl with
  | nil => intro _; exact ⟨[], rfl, rfl⟩
  | cons s rest ih =>
    intro h
    obtain ⟨sr, hsr, hslug⟩ := h s (List.mem_cons_self _ _)
    obtain ⟨l, hl, hmap⟩ := ih (fun x hx => h x (List.mem_cons_of_mem _ hx))
    refine ⟨sr :: l, ?_, ?_⟩
    · rw [getAllSeriesGo, hsr, hl]
    · rw [List.map_cons, hmap, hslug]

/-- C9 (amended): on a well-formed tree — nonempty entry names whose NFC forms
contain no `/` and are pairwise distinct within each directory — whose root
directory does not itself qualify as a series, every slug produced by
discovery loads: `getSeriesBySlug` returns a series whose `slug` field equals
the requested slug, and `getAllSeries` returns exactly one series per
discovered slug, in discovery order. -/
theorem discovered_slugs_load (root : List (String × FSNode))
    (hwf : WFEntries root) (hroot : registersAsSeries root = false) :
    (∀ slug ∈ (findSeriesDirs root).1,
      ∃ s : Series, getSeriesBySlug root slug = Except.ok (some s) ∧ s.slug = slug) ∧
    ∃ l : List Series, getAllSeries root = Except.ok l ∧
      l.map (fun s => s.slug) = (findSeriesDirs root).1 := by
  have hinv := findGo_inv root hwf (sizeEntries root + 1) root [] []
    rfl (fun x hx => absurd hx (by simp)) (fun _ => hroot)
    (fun x w hx => by simp [mapGet] at hx)
  have hmain : ∀ slug ∈ (findSeriesDirs root).1,
      ∃ s : Series, getSeriesBySlug root slug = Except.ok (some s) ∧
        s.slug = slug := by
    intro slug hs
    have hsome : (mapGet (findSeriesDirs root).2 slug).isSome = true :=
      hinv.2.2 slug hs
    obtain ⟨v, hv⟩ := Option.isSome_iff_exists.mp hsome
    obtain ⟨hvne, ds, hres, hq⟩ := hinv.1 slug v hv
    refine ⟨assembleSeries slug v ds, ?_, rfl⟩
    rw [getSeriesBySlug_eq hv hvne hres, registers_load hq slug v]
  refine ⟨hmain, ?_⟩
  exact getAllSeriesGo_loads root (findSeriesDirs root).1 hmain

/-- A root whose top-level directory itself holds a media file. -/
def c9Root : List (String × FSNode) := [("stray.webp", FSNode.file none)]

/-- C9 counterexample: when the series root itself contains a media file,
discovery emits the slug `""` (its path slugifies to the empty string), but
`getSeriesBySlug ""` returns null — the empty fs path stored for it fails the
JavaScript falsy-string guard — so a discovered slug does not load. -/
theorem root_slug_discovered_but_unloadable :
    (findSeriesDirs c9Root).1 = [""] ∧ getSeriesBySlug c9Root "" = Except.ok none :=
  ⟨rfl, rfl⟩

/-- An NFD-named series directory holding one image and one nested series. -/
def w9Root : List (String × FSNode) :=
  [("E\u0301te\u0301", FSNode.dir
    [("x.webp", FSNode.file none),
     ("Sub", FSNode.dir [("y.mp4", FSNode.file none)])])]

theorem discovered_slugs_load_witness :
    wfGo 3 w9Root = true ∧ registersAsSeries w9Root = false ∧
    ((∀ slug ∈ (findSeriesDirs w9Root).1,
        ∃ s : Series, getSeriesBySlug w9Root slug = Except.ok (some s) ∧
          s.slug = slug) ∧
      ∃ l : List Series, getAllSeries w9Root = Except.ok l ∧
        l.map (fun s => s.slug) = (findSeriesDirs w9Root).1) :=
  ⟨by decide, by decide,
    discovered_slugs_load w9Root (wfGo_sound 3 w9Root (by decide)) (by decide)⟩

end SeriesLoader
